import Mathlib

/-!
# The Huffman codec of script.js

A shallow embedding of the functions of `src/script.js` that make up the codec
(`buildFrequencyMap`, `buildHuffmanTree`, `generateHuffmanCodes`, `compressString`,
`binaryToBase64`, `serializeTree`, `deserializeTree`, `base64ToBinary`,
`decompressString`) and theorems about them.

Conventions of the embedding.

* A JavaScript string is a list of code points (`List Char`); `for (let c of s)` walks
  exactly that list.  Lone surrogates are outside the model.  The operations that count
  UTF-16 units (`length`, `padEnd`, `substr`) are applied by the program only to strings
  of ASCII characters, where units and code points coincide.
* A reference to a `HuffmanNode` object is a value of the inductive type `HuffmanNode`:
  either `null` or a node with its four fields.
* `undefined` is `none` in an `Option`; a thrown exception is `Except.error`.
* A plain object used as a dictionary with one-character keys is the list of its own
  properties in the order in which JavaScript enumerates them (`JsObject`).
* Numbers that are counts are natural numbers.
-/

namespace Huffman

/-! ## Values -/

/-- Exceptions the modelled functions can raise. -/
inductive JsError
  /-- A property was read from `null` or `undefined`. -/
  | typeError
  /-- The function `atob` was given a string that is not base64. -/
  | invalidCharacter
  deriving DecidableEq, Repr

instance instDecidableEqExcept {ε α : Type} [DecidableEq ε] [DecidableEq α] :
    DecidableEq (Except ε α)
  | Except.ok a, Except.ok b =>
    if h : a = b then isTrue (h ▸ rfl) else isFalse (fun h2 => h (Except.ok.inj h2))
  | Except.error a, Except.error b =>
    if h : a = b then isTrue (h ▸ rfl) else isFalse (fun h2 => h (Except.error.inj h2))
  | Except.ok _, Except.error _ => isFalse (fun h => Except.noConfusion h)
  | Except.error _, Except.ok _ => isFalse (fun h => Except.noConfusion h)

/-- A reference to an object of `class HuffmanNode` (lines 2-9): `null`, or an object with
the fields `char` (a one-character string or `null`), `freq`, `left` and `right`. -/
inductive HuffmanNode
  | null
  | node (char : Option Char) (freq : Nat) (left right : HuffmanNode)
  deriving DecidableEq, Repr

namespace HuffmanNode

/-- The field `freq` of a node.  It is read only from nodes of the forest of
`buildHuffmanTree`, which are never `null` (see `mergeLoop_ne_null`). -/
def freq : HuffmanNode → Nat
  | null => 0
  | node _ f _ _ => f

/-- The call `new HuffmanNode(char, freq)`: both children default to `null`. -/
def leaf (char : Char) (freq : Nat) : HuffmanNode :=
  node (some char) freq null null

end HuffmanNode

/-- The own properties of a plain object whose keys are one-character strings, in
enumeration order: keys that are array indices (the digits) in ascending order first, then
the other keys in the order in which they were created. -/
abbrev JsObject (α : Type) := List (Char × α)

/-- The read `obj[key]`; `none` is `undefined`. -/
def objGet {α : Type} : JsObject α → Char → Option α
  | [], _ => none
  | (k, v) :: rest, key => if k = key then some v else objGet rest key

/-- Overwrite the value of an existing property, keeping its position. -/
def objUpdate {α : Type} : JsObject α → Char → α → JsObject α
  | [], _, _ => []
  | (k, v) :: rest, key, val =>
    if k = key then (key, val) :: rest else (k, v) :: objUpdate rest key val

/-- Create a property whose key is an array index: it goes after the index keys that are
smaller and before everything else. -/
def objInsertIndex {α : Type} : JsObject α → Char → α → JsObject α
  | [], key, val => [(key, val)]
  | (k, v) :: rest, key, val =>
    if k.isDigit && decide (k < key) then (k, v) :: objInsertIndex rest key val
    else (key, val) :: (k, v) :: rest

/-- The write `obj[key] = val`. -/
def objSet {α : Type} (obj : JsObject α) (key : Char) (val : α) : JsObject α :=
  if (objGet obj key).isSome then objUpdate obj key val
  else if key.isDigit then objInsertIndex obj key val
  else obj ++ [(key, val)]

/-- The call `Object.entries(obj)`. -/
def objectEntries {α : Type} (obj : JsObject α) : List (Char × α) := obj

/-- The expression `x || 0` for `x` a count or `undefined`. -/
def orZero : Option Nat → Nat
  | none => 0
  | some n => if n = 0 then 0 else n

/-! ## The functions of the codec -/

/-- Lines 12-18. -/
def buildFrequencyMap (str : List Char) : JsObject Nat :=
  str.foldl (fun freqMap char => objSet freqMap char (orZero (objGet freqMap char) + 1)) []

/-- The call `nodes.sort((a, b) => a.freq - b.freq)`: a stable sort by `freq`. -/
def sortNodes (nodes : List HuffmanNode) : List HuffmanNode :=
  List.insertionSort (fun a b => a.freq ≤ b.freq) nodes

/-- One pass through the body of the loop of lines 23-29. -/
def mergeStep (nodes : List HuffmanNode) : List HuffmanNode :=
  match sortNodes nodes with
  | left :: right :: rest =>
    rest ++ [HuffmanNode.node none (left.freq + right.freq) left right]
  | sorted => sorted

/-- The loop of lines 23-29, run for at most `fuel` passes. -/
def mergeLoop : Nat → List HuffmanNode → List HuffmanNode
  | 0, nodes => nodes
  | fuel + 1, nodes => if nodes.length > 1 then mergeLoop fuel (mergeStep nodes) else nodes

/-- Lines 21-31.  The loop is given as many passes as the forest has nodes, which is
enough for it to exit by its own test (`mergeLoop_length_le_one`).  No statement of the
function raises, and `nodes[0]` of an empty array is `undefined`. -/
def buildHuffmanTree (freqMap : JsObject Nat) : Except JsError (Option HuffmanNode) :=
  let nodes := (objectEntries freqMap).map (fun e => HuffmanNode.leaf e.1 e.2)
  Except.ok (mergeLoop nodes.length nodes).head?

/-- The effect of lines 35-40 on `codeMap`, for a root that is `null` or a node. -/
def generateCodes : HuffmanNode → List Char → JsObject (List Char) → JsObject (List Char)
  | HuffmanNode.null, _, codeMap => codeMap
  | HuffmanNode.node char _ left right, currentCode, codeMap =>
    let codeMap1 := match char with
      | some c => objSet codeMap c currentCode
      | none => codeMap
    let codeMap2 := generateCodes left (currentCode ++ ['0']) codeMap1
    generateCodes right (currentCode ++ ['1']) codeMap2

/-- Lines 34-42, called as `generateHuffmanCodes(root)`.  An `undefined` root is not
`=== null`, so `root.char` raises; a `null` root returns `undefined`. -/
def generateHuffmanCodes : Option HuffmanNode → Except JsError (Option (JsObject (List Char)))
  | none => Except.error JsError.typeError
  | some HuffmanNode.null => Except.ok none
  | some root => Except.ok (some (generateCodes root [] []))

/-- The text appended by `compressed += huffmanCodes[char]`: the code, or the text of
`undefined`. -/
def codeText : Option (List Char) → List Char
  | some code => code
  | none => "undefined".toList

/-- The loop of lines 47-49 for a code table that is an object. -/
def compressLoop (huffmanCodes : JsObject (List Char)) : List Char → List Char → List Char
  | [], compressed => compressed
  | char :: rest, compressed =>
    compressLoop huffmanCodes rest (compressed ++ codeText (objGet huffmanCodes char))

/-- Lines 45-51.  Reading a property of an `undefined` table raises. -/
def compressString (str : List Char) (huffmanCodes : Option (JsObject (List Char))) :
    Except JsError (List Char) :=
  match str, huffmanCodes with
  | [], _ => Except.ok []
  | _ :: _, none => Except.error JsError.typeError
  | str, some codes => Except.ok (compressLoop codes str [])

/-- The loop of lines 154-161. -/
def decompressLoop (huffmanTree : HuffmanNode) :
    List Char → HuffmanNode → List Char → Except JsError (List Char)
  | [], _, result => Except.ok result
  | bit :: rest, currentNode, result =>
    match currentNode with
    | HuffmanNode.null => Except.error JsError.typeError
    | HuffmanNode.node _ _ left right =>
      match (if bit = '0' then left else right) with
      | HuffmanNode.null => Except.error JsError.typeError
      | HuffmanNode.node (some c) _ _ _ =>
        decompressLoop huffmanTree rest huffmanTree (result ++ [c])
      | HuffmanNode.node none f l r =>
        decompressLoop huffmanTree rest (HuffmanNode.node none f l r) result

/-- Lines 150-164. -/
def decompressString (compressedStr : List Char) (huffmanTree : HuffmanNode) :
    Except JsError (List Char) :=
  decompressLoop huffmanTree compressedStr huffmanTree []

/-- The plain record built by `serializeTree`: `null`, or an object with the four
properties `char`, `freq`, `left`, `right`. -/
inductive SerializedTree
  | null
  | obj (char : Option Char) (freq : Nat) (left right : SerializedTree)
  deriving DecidableEq, Repr

/-- Lines 66-74. -/
def serializeTree : HuffmanNode → SerializedTree
  | HuffmanNode.null => SerializedTree.null
  | HuffmanNode.node char freq left right =>
    SerializedTree.obj char freq (serializeTree left) (serializeTree right)

/-- Lines 77-80. -/
def deserializeTree : SerializedTree → HuffmanNode
  | SerializedTree.null => HuffmanNode.null
  | SerializedTree.obj char freq left right =>
    HuffmanNode.node char freq (deserializeTree left) (deserializeTree right)


/-! ## Byte packing and base64 -/

/-- The call `s.padEnd(targetLength, c)` with a one-character filler. -/
def padEnd (s : List Char) (targetLength : Nat) (c : Char) : List Char :=
  s ++ List.replicate (targetLength - s.length) c

/-- The call `s.padStart(targetLength, c)` with a one-character filler. -/
def padStart (s : List Char) (targetLength : Nat) (c : Char) : List Char :=
  List.replicate (targetLength - s.length) c ++ s

/-- The call `s.substr(start, length)`. -/
def substr (s : List Char) (start length : Nat) : List Char :=
  (s.drop start).take length

/-- The characters that `parseInt` skips at the start of its argument (white space and
line terminators of the language). -/
def isJsWhiteSpace (c : Char) : Bool :=
  c.toNat ∈ [0x09, 0x0A, 0x0B, 0x0C, 0x0D, 0x20, 0xA0, 0x1680, 0x2000, 0x2001, 0x2002,
    0x2003, 0x2004, 0x2005, 0x2006, 0x2007, 0x2008, 0x2009, 0x200A, 0x2028, 0x2029, 0x202F,
    0x205F, 0x3000, 0xFEFF]

/-- The value of a run of binary digits, most significant first. -/
def binaryValue (digits : List Char) : Nat :=
  digits.foldl (fun acc c => 2 * acc + (if c = '1' then 1 else 0)) 0

/-- The call `parseInt(s, 2)`; `none` is `NaN`.  Leading white space is skipped, a sign is
read, then the longest run of binary digits. -/
def parseInt2 (s : List Char) : Option Int :=
  let trimmed := s.dropWhile isJsWhiteSpace
  let signed : Int × List Char :=
    match trimmed with
    | '-' :: r => (-1, r)
    | '+' :: r => (1, r)
    | r => (1, r)
  let digits := signed.2.takeWhile (fun c => c = '0' || c = '1')
  if digits.isEmpty then none else some (signed.1 * (binaryValue digits : Int))

/-- The conversion of an array element to an element of a `Uint8Array`. -/
def toUint8 : Option Int → Nat
  | none => 0
  | some n => (n % 256).toNat

/-- The byte array `byteArray` of lines 55-61. -/
def packBytes (binaryStr : List Char) : List Nat :=
  let paddedBinaryStr := padEnd binaryStr ((binaryStr.length + 7) / 8 * 8) '0'
  let binaryArray := (List.range ((paddedBinaryStr.length + 7) / 8)).map
    (fun j => parseInt2 (substr paddedBinaryStr (8 * j) 8))
  binaryArray.map toUint8

/-- The base64 alphabet. -/
def base64Alphabet : List Char :=
  "ABCDEFGHIJKLMNOPQRSTUVWXYZabcdefghijklmnopqrstuvwxyz0123456789+/".toList

/-- The base64 character of a six-bit value. -/
def base64Char (n : Nat) : Char := base64Alphabet.getD n 'A'

/-- The six-bit value of a base64 character, if it is one. -/
def base64Index (c : Char) : Option Nat :=
  if c ∈ base64Alphabet then some (base64Alphabet.indexOf c) else none

/-- The platform function `btoa` on a string given by its character codes, all below
256: base64 with `=` padding. -/
def btoa : List Nat → List Char
  | [] => []
  | [a] => [base64Char (a / 4), base64Char (a % 4 * 16), '=', '=']
  | [a, b] => [base64Char (a / 4), base64Char (a % 4 * 16 + b / 16),
      base64Char (b % 16 * 4), '=']
  | a :: b :: c :: rest =>
    base64Char (a / 4) :: base64Char (a % 4 * 16 + b / 16)
      :: base64Char (b % 16 * 4 + c / 64) :: base64Char (c % 64) :: btoa rest

/-- The white space that `atob` removes from its argument. -/
def isAsciiWhitespace (c : Char) : Bool :=
  c.toNat ∈ [0x09, 0x0A, 0x0C, 0x0D, 0x20]

/-- Remove one or two `=` at the end of a string. -/
def stripPadding : List Char → List Char
  | [] => []
  | c :: rest =>
    if c = '=' ∧ (rest = [] ∨ rest = ['=']) then [] else c :: stripPadding rest

/-- The bytes spelled by a run of six-bit values; the bits left over at the end are
dropped. -/
def decodeSextets : List Nat → List Nat
  | a :: b :: c :: d :: rest =>
    (a * 4 + b / 16) :: (b % 16 * 16 + c / 4) :: (c % 4 * 64 + d) :: decodeSextets rest
  | [a, b, c] => [a * 4 + b / 16, b % 16 * 16 + c / 4]
  | [a, b] => [a * 4 + b / 16]
  | _ => []

/-- The six-bit values of a string of base64 characters; `none` if some character is not in
the alphabet. -/
def base64Values : List Char → Option (List Nat)
  | [] => some []
  | c :: rest =>
    match base64Index c, base64Values rest with
    | some n, some ns => some (n :: ns)
    | _, _ => none

/-- The platform function `atob` (forgiving base64 decoding), returning the character
codes of its result. -/
def atob (s : List Char) : Except JsError (List Nat) :=
  let data := s.filter (fun c => !isAsciiWhitespace c)
  let data := if data.length % 4 = 0 then stripPadding data else data
  if data.length % 4 = 1 then Except.error JsError.invalidCharacter
  else
    match base64Values data with
    | none => Except.error JsError.invalidCharacter
    | some sextets => Except.ok (decodeSextets sextets)

/-- Lines 54-63. -/
def binaryToBase64 (binaryStr : List Char) : List Char :=
  btoa (packBytes binaryStr)

/-- The digits of `n.toString(2)`, given enough `fuel`. -/
def toBinaryDigits : Nat → Nat → List Char → List Char
  | 0, _, acc => acc
  | fuel + 1, n, acc =>
    let acc1 := (if n % 2 = 1 then '1' else '0') :: acc
    if n / 2 = 0 then acc1 else toBinaryDigits fuel (n / 2) acc1

/-- The call `n.toString(2)` for a natural number `n`. -/
def toString2 (n : Nat) : List Char := toBinaryDigits (n + 1) n []

/-- Lines 139-147. -/
def base64ToBinary (base64Str : List Char) : Except JsError (List Char) :=
  match atob base64Str with
  | Except.error e => Except.error e
  | Except.ok binaryString =>
    Except.ok ((binaryString.map (fun code => padStart (toString2 code) 8 '0')).flatten)

/-- The eight bits of a byte as characters, most significant first. -/
def byteBits (n : Nat) : List Char :=
  [7, 6, 5, 4, 3, 2, 1, 0].map (fun k => if n / 2 ^ k % 2 = 1 then '1' else '0')


/-! ## Definitions used in the statements and proofs -/

/-- The six-bit values that `btoa` writes, without the padding. -/
def sextets : List Nat → List Nat
  | [] => []
  | [a] => [a / 4, a % 4 * 16]
  | [a, b] => [a / 4, a % 4 * 16 + b / 16, b % 16 * 4]
  | a :: b :: c :: rest =>
    a / 4 :: (a % 4 * 16 + b / 16) :: (b % 16 * 4 + c / 64) :: c % 64 :: sextets rest

/-- The first `n` groups of eight characters of a string. -/
def chunks8 : Nat → List Char → List (List Char)
  | 0, _ => []
  | n + 1, s => s.take 8 :: chunks8 n (s.drop 8)


namespace HuffmanNode

/-- A strict binary tree: a node, each of whose nodes has either two children and
`char = null`, or no child and a `char` that is not `null`. -/
def isStrict : HuffmanNode → Bool
  | null => false
  | node char _ left right =>
    match char, left, right with
    | some _, null, null => true
    | none, node _ _ _ _, node _ _ _ _ => isStrict left && isStrict right
    | _, _, _ => false

/-- The leaves of a tree (the nodes without children), left to right, each with its `char`
and `freq`. -/
def leaves : HuffmanNode → List (Option Char × Nat)
  | null => []
  | node char freq left right =>
    match left, right with
    | null, null => [(char, freq)]
    | _, _ => leaves left ++ leaves right

/-- Every node holds in `freq` the sum of the `freq` of the leaves of its subtree. -/
def freqConsistent : HuffmanNode → Bool
  | null => true
  | node char freq left right =>
    decide (freq = ((leaves (node char freq left right)).map Prod.snd).sum)
      && freqConsistent left && freqConsistent right

end HuffmanNode

/-- The writes `codeMap[char] = currentCode` that `generateHuffmanCodes(root, currentCode)`
performs, in order: one for every node with a `char`, with the path from the root written
with `0` for left and `1` for right after `currentCode`. -/
def codeWrites : HuffmanNode → List Char → List (Char × List Char)
  | HuffmanNode.null, _ => []
  | HuffmanNode.node char _ left right, currentCode =>
    (match char with
      | some c => [(c, currentCode)]
      | none => [])
    ++ codeWrites left (currentCode ++ ['0']) ++ codeWrites right (currentCode ++ ['1'])

/-- The forest with which `buildHuffmanTree` starts (line 22). -/
def initialNodes (freqMap : JsObject Nat) : List HuffmanNode :=
  (objectEntries freqMap).map (fun e => HuffmanNode.leaf e.1 e.2)

/-- The invariant of a node of the forest: strict, with consistent frequencies. -/
def goodNode (n : HuffmanNode) : Prop :=
  n.isStrict = true ∧ n.freqConsistent = true

/-- The invariant of the forest of `buildHuffmanTree` for the table `entries`. -/
def forestInv (entries : List (Option Char × Nat)) (nodes : List HuffmanNode) : Prop :=
  (∀ n ∈ nodes, goodNode n) ∧ ((nodes.map HuffmanNode.leaves).flatten).Perm entries


namespace HuffmanNode

/-- The root-to-leaf paths of a tree: for every leaf (a node without children) its `char`
and the steps from the root, `0` for a step to a left child and `1` for a step to a right
child. -/
def leafPaths : HuffmanNode → List (Option Char × List Char)
  | null => []
  | node char _ left right =>
    match left, right with
    | null, null => [(char, [])]
    | _, _ => (leafPaths left).map (fun e => (e.1, '0' :: e.2))
        ++ (leafPaths right).map (fun e => (e.1, '1' :: e.2))

end HuffmanNode

/-- The value of `currentNode` at the start of every pass of the loop of lines 154-161, in
order, up to the pass that raises if one does. -/
def currentNodes (huffmanTree : HuffmanNode) : List Char → HuffmanNode → List HuffmanNode
  | [], _ => []
  | bit :: rest, currentNode =>
    currentNode ::
      match currentNode with
      | HuffmanNode.null => []
      | HuffmanNode.node _ _ left right =>
        match (if bit = '0' then left else right) with
        | HuffmanNode.null => []
        | HuffmanNode.node (some _) _ _ _ => currentNodes huffmanTree rest huffmanTree
        | HuffmanNode.node none f l r =>
          currentNodes huffmanTree rest (HuffmanNode.node none f l r)

namespace HuffmanNode

end HuffmanNode


/-- The number of passes that the loop of lines 23-29 makes when it is given `fuel`
passes at most. -/
def mergePasses : Nat → List HuffmanNode → Nat
  | 0, _ => 0
  | fuel + 1, nodes =>
    if nodes.length > 1 then mergePasses fuel (mergeStep nodes) + 1 else 0

namespace HuffmanNode

/-- The number of nodes of a tree that have a child. -/
def internalCount : HuffmanNode → Nat
  | null => 0
  | node _ _ left right =>
    match left, right with
    | null, null => 0
    | _, _ => internalCount left + internalCount right + 1

end HuffmanNode

/-- The nodes of a list with the ranks of their creation, counted from `k`. -/
def stampFrom : Nat → List HuffmanNode → List (Nat × HuffmanNode)
  | _, [] => []
  | k, n :: rest => (k, n) :: stampFrom (k + 1) rest

/-- The sort of line 24 on nodes that carry the rank of their creation: the rank plays no
part in the comparison. -/
def sortStamped (nodes : List (Nat × HuffmanNode)) : List (Nat × HuffmanNode) :=
  List.insertionSort (fun a b => a.2.freq ≤ b.2.freq) nodes

/-- One pass of the loop of lines 23-29 on nodes that carry the rank of their creation;
the node made by the pass gets the rank `stamp`. -/
def stampedStep (stamp : Nat) (nodes : List (Nat × HuffmanNode)) : List (Nat × HuffmanNode) :=
  match sortStamped nodes with
  | left :: right :: rest =>
    rest ++ [(stamp, HuffmanNode.node none (left.2.freq + right.2.freq) left.2 right.2)]
  | sorted => sorted

/-- The forest of `buildHuffmanTree` after `i` passes of its loop, every node with the rank
of its creation: the leaves are created first, in the order of the table, and the node made
by pass number `i` (from 0) is created after all of them and all earlier merged nodes. -/
def stampedForest (t : JsObject Nat) : Nat → List (Nat × HuffmanNode)
  | 0 => stampFrom 0 (initialNodes t)
  | i + 1 =>
    if (stampedForest t i).length > 1 then stampedStep (t.length + i) (stampedForest t i)
    else stampedForest t i

/-- The order in which the loop takes nodes out of the forest: `x` goes before `y` when its
frequency is smaller, or when the frequencies are equal and `x` was created earlier. -/
def takenBefore (x y : Nat × HuffmanNode) : Prop :=
  x.2.freq < y.2.freq ∨ (x.2.freq = y.2.freq ∧ x.1 < y.1)

namespace HuffmanNode

/-- At every node that has a child, the `freq` of the left child is at most the `freq` of
the right child. -/
def childrenOrdered : HuffmanNode → Bool
  | null => true
  | node _ _ left right =>
    (match left, right with
      | null, null => true
      | _, _ => decide (left.freq ≤ right.freq))
    && childrenOrdered left && childrenOrdered right

end HuffmanNode


/-- The length of the code of a symbol in a code table, 0 if the symbol has no code. -/
def codeLength (codes : JsObject (List Char)) (c : Char) : Nat :=
  match objGet codes c with
  | some code => code.length
  | none => 0

/-- The weighted path length of a tree for a frequency table: the sum, over the entries
`c: n` of the table, of `n` times the length of the code that `generateHuffmanCodes` gives
to `c` in the tree. -/
def weightedLength (t : JsObject Nat) (tree : HuffmanNode) : Nat :=
  (t.map (fun e => e.2 * codeLength (generateCodes tree [] []) e.1)).sum

/-- The sum of `weight * depth` over a list of pairs of a weight and a depth. -/
def depthCost (a : List (Nat × Nat)) : Nat :=
  (a.map (fun e => e.1 * e.2)).sum

/-- The sum of `2 ^ (N - d)` over a list of depths, which is `2 ^ N` for the depths of
the leaves of a strict binary tree of height at most `N`. -/
def kraftSum (N : Nat) (depths : List Nat) : Nat :=
  (depths.map (fun d => 2 ^ (N - d))).sum

/-- The total of the frequencies of the nodes made by the merge loop on a forest whose
nodes have the frequencies `ws`, the loop being given `fuel` passes at most. -/
def greedyCost : Nat → List Nat → Nat
  | 0, _ => 0
  | fuel + 1, ws =>
    match List.insertionSort (fun a b => a ≤ b) ws with
    | x :: y :: rest => (x + y) + greedyCost fuel (rest ++ [x + y])
    | _ => 0

namespace HuffmanNode

/-- The leaves of a tree, left to right, each with its `freq` and its depth. -/
def leafDepths : HuffmanNode → List (Nat × Nat)
  | null => []
  | node _ freq left right =>
    match left, right with
    | null, null => [(freq, 0)]
    | _, _ => (leafDepths left).map (fun e => (e.1, e.2 + 1))
        ++ (leafDepths right).map (fun e => (e.1, e.2 + 1))

end HuffmanNode

/-- The leaves of a tree as pairs of the count that a table gives to the symbol of the leaf
and the length of the code of the leaf. -/
def weightedDepths (t : JsObject Nat) (tree : HuffmanNode) : List (Nat × Nat) :=
  (codeWrites tree []).map (fun e => ((objGet t e.1).getD 0, e.2.length))


/-! # Theorems -/

/-! ## Dictionary objects -/

theorem objGet_eq_none_iff {α : Type} (o : JsObject α) (key : Char) :
    objGet o key = none ↔ key ∉ o.map Prod.fst := by
  induction o with
  | nil => simp [objGet]
  | cons e rest ih =>
    obtain ⟨k, v⟩ := e
    by_cases h : k = key
    · simp [objGet, h]
    · simp [objGet, h, ih, Ne.symm h]

theorem objGet_isSome_iff {α : Type} (o : JsObject α) (key : Char) :
    (objGet o key).isSome = true ↔ key ∈ o.map Prod.fst := by
  rw [← not_iff_not, ← objGet_eq_none_iff]
  cases objGet o key <;> simp

theorem objGet_of_mem {α : Type} (o : JsObject α) (hnd : (o.map Prod.fst).Nodup)
    (e : Char × α) (he : e ∈ o) : objGet o e.1 = some e.2 := by
  induction o with
  | nil => cases he
  | cons e0 rest ih =>
    obtain ⟨k, v⟩ := e0
    simp only [List.map_cons, List.nodup_cons] at hnd
    rcases List.mem_cons.1 he with rfl | hin
    · simp [objGet]
    · have hne : k ≠ e.1 := by
        intro hk
        exact hnd.1 (hk ▸ List.mem_map_of_mem Prod.fst hin)
      simp [objGet, hne, ih hnd.2 hin]

theorem objUpdate_keys {α : Type} (o : JsObject α) (key : Char) (val : α) :
    (objUpdate o key val).map Prod.fst = o.map Prod.fst := by
  induction o with
  | nil => rfl
  | cons e rest ih =>
    obtain ⟨k, v⟩ := e
    by_cases h : k = key
    · simp [objUpdate, h]
    · simp [objUpdate, h, ih]

theorem objInsertIndex_keys {α : Type} (o : JsObject α) (key : Char) (val : α) :
    ((objInsertIndex o key val).map Prod.fst).Perm (key :: o.map Prod.fst) := by
  induction o with
  | nil => simp [objInsertIndex]
  | cons e rest ih =>
    obtain ⟨k, v⟩ := e
    by_cases h : (k.isDigit && decide (k < key)) = true
    · simp only [objInsertIndex, h, if_true, List.map_cons]
      exact (List.Perm.cons k ih).trans (List.Perm.swap key k _)
    · simp [objInsertIndex, h]

theorem objSet_keys {α : Type} (o : JsObject α) (key : Char) (val : α) :
    ((objSet o key val).map Prod.fst).Perm
      (if key ∈ o.map Prod.fst then o.map Prod.fst else key :: o.map Prod.fst) := by
  unfold objSet
  by_cases h : key ∈ o.map Prod.fst
  · rw [if_pos ((objGet_isSome_iff o key).2 h), if_pos h, objUpdate_keys]
  · have h2 : ¬ (objGet o key).isSome = true := fun hs => h ((objGet_isSome_iff o key).1 hs)
    rw [if_neg h2, if_neg h]
    by_cases hd : key.isDigit = true
    · rw [if_pos hd]
      exact objInsertIndex_keys o key val
    · rw [if_neg hd, List.map_append]
      simp [List.perm_append_singleton]

theorem objGet_objUpdate {α : Type} (o : JsObject α) (key : Char) (val : α) (c : Char)
    (h : key ∈ o.map Prod.fst) :
    objGet (objUpdate o key val) c = if key = c then some val else objGet o c := by
  induction o with
  | nil => simp at h
  | cons e rest ih =>
    obtain ⟨k, v⟩ := e
    by_cases hk : k = key
    · subst hk
      by_cases hc : k = c <;> simp [objUpdate, objGet, hc]
    · have h2 : key ∈ rest.map Prod.fst := by
        simpa [Ne.symm hk] using h
      by_cases hc : k = c
      · subst hc
        simp [objUpdate, objGet, hk, Ne.symm hk]
      · simp [objUpdate, objGet, hk, hc, ih h2]

theorem objGet_objInsertIndex {α : Type} (o : JsObject α) (key : Char) (val : α) (c : Char)
    (h : key ∉ o.map Prod.fst) :
    objGet (objInsertIndex o key val) c = if key = c then some val else objGet o c := by
  induction o with
  | nil => simp [objInsertIndex, objGet]
  | cons e rest ih =>
    obtain ⟨k, v⟩ := e
    have hk : key ≠ k := by
      intro hk
      exact h (by simp [hk])
    have h2 : key ∉ rest.map Prod.fst := fun hin => h (by simp [hin])
    by_cases hd : (k.isDigit && decide (k < key)) = true
    · simp only [objInsertIndex, hd, if_true, objGet, ih h2]
      by_cases hc : k = c
      · subst hc
        simp [hk]
      · simp [hc]
    · simp [objInsertIndex, hd, objGet]

theorem objGet_append_singleton {α : Type} (o : JsObject α) (key : Char) (val : α) (c : Char)
    (h : key ∉ o.map Prod.fst) :
    objGet (o ++ [(key, val)]) c = if key = c then some val else objGet o c := by
  induction o with
  | nil => simp [objGet]
  | cons e rest ih =>
    obtain ⟨k, v⟩ := e
    have hk : key ≠ k := by
      intro hk
      exact h (by simp [hk])
    have h2 : key ∉ rest.map Prod.fst := fun hin => h (by simp [hin])
    by_cases hc : k = c
    · subst hc
      simp [objGet, hk]
    · simp [objGet, hc, ih h2]

/-- Reading after writing: the written key holds the new value, every other key is
unchanged. -/
theorem objGet_objSet {α : Type} (o : JsObject α) (key : Char) (val : α) (c : Char) :
    objGet (objSet o key val) c = if key = c then some val else objGet o c := by
  unfold objSet
  by_cases h : key ∈ o.map Prod.fst
  · rw [if_pos ((objGet_isSome_iff o key).2 h)]
    exact objGet_objUpdate o key val c h
  · have h2 : ¬ (objGet o key).isSome = true := fun hs => h ((objGet_isSome_iff o key).1 hs)
    rw [if_neg h2]
    by_cases hd : key.isDigit = true
    · rw [if_pos hd]
      exact objGet_objInsertIndex o key val c h
    · rw [if_neg hd]
      exact objGet_append_singleton o key val c h

theorem objUpdate_sum (o : JsObject Nat) (key : Char) (val : Nat) :
    ((objUpdate o key val).map Prod.snd).sum + orZero (objGet o key)
      = (o.map Prod.snd).sum + (if key ∈ o.map Prod.fst then val else 0) := by
  induction o with
  | nil => simp [objUpdate, objGet, orZero]
  | cons e rest ih =>
    obtain ⟨k, v⟩ := e
    by_cases hk : k = key
    · subst hk
      simp only [objUpdate, objGet, if_true, List.map_cons, List.sum_cons, List.mem_cons,
        true_or, orZero]
      split <;> omega
    · simp only [objUpdate, objGet, hk, if_false, List.map_cons, List.sum_cons, List.mem_cons,
        Ne.symm hk, false_or]
      omega

theorem objInsertIndex_sum (o : JsObject Nat) (key : Char) (val : Nat) :
    ((objInsertIndex o key val).map Prod.snd).sum = (o.map Prod.snd).sum + val := by
  have h : ((objInsertIndex o key val).map Prod.snd).Perm (val :: o.map Prod.snd) := by
    induction o with
    | nil => simp [objInsertIndex]
    | cons e rest ih =>
      obtain ⟨k, v⟩ := e
      by_cases hd : (k.isDigit && decide (k < key)) = true
      · simp only [objInsertIndex, hd, if_true, List.map_cons]
        exact (List.Perm.cons v ih).trans (List.Perm.swap val v _)
      · simp [objInsertIndex, hd]
  rw [h.sum_eq, List.sum_cons]
  omega

/-- One pass of the loop of `buildFrequencyMap` adds one to the sum of the counts. -/
theorem objSet_count_sum (o : JsObject Nat) (key : Char) :
    ((objSet o key (orZero (objGet o key) + 1)).map Prod.snd).sum
      = (o.map Prod.snd).sum + 1 := by
  unfold objSet
  by_cases h : key ∈ o.map Prod.fst
  · rw [if_pos ((objGet_isSome_iff o key).2 h)]
    have := objUpdate_sum o key (orZero (objGet o key) + 1)
    rw [if_pos h] at this
    omega
  · have h2 : ¬ (objGet o key).isSome = true := fun hs => h ((objGet_isSome_iff o key).1 hs)
    have h3 : objGet o key = none := (objGet_eq_none_iff o key).2 h
    rw [if_neg h2, h3]
    by_cases hd : key.isDigit = true
    · rw [if_pos hd, objInsertIndex_sum]
      simp [orZero]
    · rw [if_neg hd]
      simp [orZero]

/-! ## The frequency table -/

theorem buildFrequencyMap_append (s : List Char) (c : Char) :
    buildFrequencyMap (s ++ [c])
      = objSet (buildFrequencyMap s) c (orZero (objGet (buildFrequencyMap s) c) + 1) := by
  simp [buildFrequencyMap, List.foldl_append]

theorem buildFrequencyMap_nodup (s : List Char) :
    ((buildFrequencyMap s).map Prod.fst).Nodup := by
  induction s using List.reverseRecOn with
  | nil => simp [buildFrequencyMap]
  | append_singleton s c ih =>
    rw [buildFrequencyMap_append, (objSet_keys _ _ _).nodup_iff]
    split
    · exact ih
    · next h => exact List.nodup_cons.2 ⟨h, ih⟩

theorem buildFrequencyMap_get (s : List Char) (c : Char) :
    objGet (buildFrequencyMap s) c = if c ∈ s then some (s.count c) else none := by
  induction s using List.reverseRecOn with
  | nil => simp [buildFrequencyMap, objGet]
  | append_singleton s d ih =>
    rw [buildFrequencyMap_append, objGet_objSet]
    by_cases hdc : d = c
    · subst hdc
      rw [if_pos rfl, ih]
      by_cases hin : d ∈ s
      · have hpos : 0 < s.count d := List.count_pos_iff.2 hin
        have hne : s.count d ≠ 0 := by omega
        simp [hin, orZero, hne]
      · simp [hin, orZero, List.count_eq_zero_of_not_mem hin]
    · rw [if_neg hdc, ih]
      simp [Ne.symm hdc, List.count_append, hdc]

theorem buildFrequencyMap_sum (s : List Char) :
    ((buildFrequencyMap s).map Prod.snd).sum = s.length := by
  induction s using List.reverseRecOn with
  | nil => simp [buildFrequencyMap]
  | append_singleton s c ih =>
    rw [buildFrequencyMap_append, objSet_count_sum, ih]
    simp

theorem buildFrequencyMap_mem_keys (s : List Char) (c : Char) :
    c ∈ (buildFrequencyMap s).map Prod.fst ↔ c ∈ s := by
  rw [← objGet_isSome_iff, buildFrequencyMap_get]
  by_cases h : c ∈ s <;> simp [h]

/-- **C3.** Tree round trip: deserialising the serialisation of any tree gives back the
same tree (same shape, same `char` and `freq` at every node); an absent node is serialised
as the null marker, only an absent node is, and the null marker is deserialised to an
absent node. -/
theorem deserializeTree_serializeTree :
    (∀ t : HuffmanNode, deserializeTree (serializeTree t) = t)
    ∧ serializeTree HuffmanNode.null = SerializedTree.null
    ∧ (∀ t : HuffmanNode, serializeTree t = SerializedTree.null ↔ t = HuffmanNode.null)
    ∧ deserializeTree SerializedTree.null = HuffmanNode.null := by
  refine ⟨?_, rfl, ?_, rfl⟩
  · intro t
    induction t with
    | null => rfl
    | node char freq left right ihl ihr => simp [serializeTree, deserializeTree, ihl, ihr]
  · intro t
    cases t <;> simp [serializeTree]

/-- **C4.** Frequency table: the keys of `buildFrequencyMap s` are pairwise distinct and
are exactly the symbols occurring in `s`; every entry maps its symbol to the number of its
occurrences in `s`, which is positive; the counts sum to the length of `s`; and the table
of the empty input is empty. -/
theorem buildFrequencyMap_spec (s : List Char) :
    ((buildFrequencyMap s).map Prod.fst).Nodup
    ∧ (∀ c, c ∈ (buildFrequencyMap s).map Prod.fst ↔ c ∈ s)
    ∧ buildFrequencyMap s = ((buildFrequencyMap s).map Prod.fst).map (fun c => (c, s.count c))
    ∧ (∀ c, c ∈ (buildFrequencyMap s).map Prod.fst ↔ 0 < s.count c)
    ∧ ((buildFrequencyMap s).map Prod.snd).sum = s.length
    ∧ buildFrequencyMap [] = [] := by
  refine ⟨buildFrequencyMap_nodup s, buildFrequencyMap_mem_keys s, ?_, ?_,
    buildFrequencyMap_sum s, rfl⟩
  · rw [List.map_map]
    conv_lhs => rw [← List.map_id (buildFrequencyMap s)]
    apply List.map_congr_left
    intro e he
    have h1 := objGet_of_mem _ (buildFrequencyMap_nodup s) e he
    rw [buildFrequencyMap_get] at h1
    have hin : e.1 ∈ s := (buildFrequencyMap_mem_keys s e.1).1 (List.mem_map_of_mem Prod.fst he)
    rw [if_pos hin] at h1
    have h2 : s.count e.1 = e.2 := Option.some.inj h1
    simp [h2]
  · intro c
    rw [buildFrequencyMap_mem_keys, List.count_pos_iff]

/-! ## Base64 -/

theorem chunks8_flatten (n : Nat) (s : List Char) (hlen : s.length = 8 * n) :
    (chunks8 n s).flatten = s := by
  induction n generalizing s with
  | zero =>
    have : s = [] := List.eq_nil_of_length_eq_zero (by omega)
    simp [chunks8, this]
  | succ n ih =>
    have h2 : (s.drop 8).length = 8 * n := by rw [List.length_drop]; omega
    rw [chunks8, List.flatten_cons, ih _ h2, List.take_append_drop]

theorem sortNodes_perm (nodes : List HuffmanNode) : (sortNodes nodes).Perm nodes :=
  List.perm_insertionSort _ nodes

/-- On a forest of more than one node, a pass of the loop removes the two first nodes of
the sorted forest and appends their parent. -/
theorem mergeStep_spec (nodes : List HuffmanNode) (h : nodes.length > 1) :
    ∃ left right rest, sortNodes nodes = left :: right :: rest
      ∧ mergeStep nodes
        = rest ++ [HuffmanNode.node none (left.freq + right.freq) left right] := by
  have hlen : (sortNodes nodes).length = nodes.length := (sortNodes_perm nodes).length_eq
  unfold mergeStep
  match hs : sortNodes nodes with
  | [] => rw [hs] at hlen; simp at hlen; omega
  | [a] => rw [hs] at hlen; simp at hlen; omega
  | left :: right :: rest => exact ⟨left, right, rest, rfl, rfl⟩

theorem mergeStep_length (nodes : List HuffmanNode) (h : nodes.length > 1) :
    (mergeStep nodes).length + 1 = nodes.length := by
  obtain ⟨left, right, rest, hs, hm⟩ := mergeStep_spec nodes h
  have hlen : (sortNodes nodes).length = nodes.length := (sortNodes_perm nodes).length_eq
  rw [hs] at hlen
  rw [hm]
  simp at hlen ⊢
  omega

/-- A property of forests that every pass of the loop keeps holds when the loop stops. -/
theorem mergeLoop_preserves (P : List HuffmanNode → Prop)
    (hstep : ∀ nodes, nodes.length > 1 → P nodes → P (mergeStep nodes)) :
    ∀ (fuel : Nat) (nodes : List HuffmanNode), P nodes → P (mergeLoop fuel nodes) := by
  intro fuel
  induction fuel with
  | zero => intro nodes h; exact h
  | succ fuel ih =>
    intro nodes h
    unfold mergeLoop
    split
    · next hlen => exact ih _ (hstep nodes hlen h)
    · exact h

/-- With as many passes as the forest has nodes, the loop stops by its own test: at most
one node is left. -/
theorem mergeLoop_length_le_one (fuel : Nat) (nodes : List HuffmanNode)
    (h : nodes.length ≤ fuel + 1) : (mergeLoop fuel nodes).length ≤ 1 := by
  induction fuel generalizing nodes with
  | zero => simpa [mergeLoop] using h
  | succ fuel ih =>
    unfold mergeLoop
    split
    · next hlen =>
      apply ih
      have := mergeStep_length nodes hlen
      omega
    · next hlen => omega

theorem mergeLoop_ne_nil (fuel : Nat) (nodes : List HuffmanNode) (h : nodes ≠ []) :
    mergeLoop fuel nodes ≠ [] := by
  apply mergeLoop_preserves (fun l => l ≠ []) _ fuel nodes h
  intro l hlen _ hnil
  have := mergeStep_length l hlen
  rw [hnil] at this
  simp at this
  omega

/-- The forest never holds a `null`. -/
theorem mergeLoop_ne_null (fuel : Nat) (nodes : List HuffmanNode)
    (h : ∀ n ∈ nodes, n ≠ HuffmanNode.null) :
    ∀ n ∈ mergeLoop fuel nodes, n ≠ HuffmanNode.null := by
  apply mergeLoop_preserves (fun l => ∀ n ∈ l, n ≠ HuffmanNode.null) _ fuel nodes h
  intro l hlen hl n hn
  obtain ⟨left, right, rest, hs, hm⟩ := mergeStep_spec l hlen
  rw [hm] at hn
  rcases List.mem_append.1 hn with hn | hn
  · apply hl
    apply (sortNodes_perm l).subset
    rw [hs]
    simp [hn]
  · simp at hn
    rw [hn]
    simp

/-- A non-empty table gives a node, the only node left in the forest. -/
theorem buildHuffmanTree_eq (freqMap : JsObject Nat) (h : freqMap ≠ []) :
    ∃ root, buildHuffmanTree freqMap = Except.ok (some root)
      ∧ mergeLoop (initialNodes freqMap).length (initialNodes freqMap) = [root] := by
  have hne : initialNodes freqMap ≠ [] := by
    simpa [initialNodes, objectEntries] using h
  have h1 := mergeLoop_length_le_one (initialNodes freqMap).length (initialNodes freqMap)
    (by omega)
  have h2 := mergeLoop_ne_nil (initialNodes freqMap).length (initialNodes freqMap) hne
  match hm : mergeLoop (initialNodes freqMap).length (initialNodes freqMap) with
  | [] => exact absurd hm h2
  | [root] =>
    refine ⟨root, ?_, rfl⟩
    show Except.ok (mergeLoop (initialNodes freqMap).length (initialNodes freqMap)).head?
      = Except.ok (some root)
    rw [hm]
    rfl
  | a :: b :: rest => rw [hm] at h1; simp at h1

/-! ## The shape of the tree -/

theorem goodNode_freq (n : HuffmanNode) (h : goodNode n) :
    n.freq = (n.leaves.map Prod.snd).sum := by
  cases n with
  | null => simp [goodNode, HuffmanNode.isStrict] at h
  | node char freq left right =>
    have h2 := h.2
    simp only [HuffmanNode.freqConsistent, Bool.and_eq_true, decide_eq_true_eq] at h2
    exact h2.1.1

theorem goodNode_leaf (c : Char) (f : Nat) : goodNode (HuffmanNode.leaf c f) := by
  simp [goodNode, HuffmanNode.leaf, HuffmanNode.isStrict, HuffmanNode.freqConsistent,
    HuffmanNode.leaves]

theorem leaves_merge (f : Nat) (left right : HuffmanNode) (hl : left.isStrict = true) :
    (HuffmanNode.node none f left right).leaves = left.leaves ++ right.leaves := by
  cases left with
  | null => simp [HuffmanNode.isStrict] at hl
  | node c f2 l r => simp [HuffmanNode.leaves]

theorem goodNode_merge (left right : HuffmanNode) (hl : goodNode left) (hr : goodNode right) :
    goodNode (HuffmanNode.node none (left.freq + right.freq) left right) := by
  have e := leaves_merge (left.freq + right.freq) left right hl.1
  have fl := goodNode_freq left hl
  have fr := goodNode_freq right hr
  refine ⟨?_, ?_⟩
  · cases left with
    | null => simp [goodNode, HuffmanNode.isStrict] at hl
    | node c f2 l r =>
      cases right with
      | null => simp [goodNode, HuffmanNode.isStrict] at hr
      | node c3 f3 l3 r3 =>
        simp only [HuffmanNode.isStrict, Bool.and_eq_true]
        exact ⟨hl.1, hr.1⟩
  · simp only [HuffmanNode.freqConsistent, Bool.and_eq_true, decide_eq_true_eq, e,
      List.map_append, List.sum_append, hl.2, hr.2, and_true]
    rw [fl, fr]

theorem forestInv_mergeStep (entries : List (Option Char × Nat)) (nodes : List HuffmanNode)
    (hlen : nodes.length > 1) (h : forestInv entries nodes) :
    forestInv entries (mergeStep nodes) := by
  obtain ⟨left, right, rest, hs, hm⟩ := mergeStep_spec nodes hlen
  have hp : (left :: right :: rest).Perm nodes := hs ▸ sortNodes_perm nodes
  have hgood : ∀ n ∈ left :: right :: rest, goodNode n := fun n hn => h.1 n (hp.subset hn)
  have gl := hgood left (by simp)
  have gr := hgood right (by simp)
  rw [hm]
  refine ⟨?_, ?_⟩
  · intro n hn
    rcases List.mem_append.1 hn with hn | hn
    · exact hgood n (by simp [hn])
    · simp only [List.mem_singleton] at hn
      rw [hn]
      exact goodNode_merge left right gl gr
  · have h1 : (((left :: right :: rest).map HuffmanNode.leaves).flatten).Perm entries :=
      ((hp.map HuffmanNode.leaves).flatten).trans h.2
    refine List.Perm.trans ?_ h1
    simp only [List.map_append, List.map_cons, List.map_nil, List.flatten_append,
      List.flatten_cons, List.flatten_nil, List.append_nil,
      leaves_merge (left.freq + right.freq) left right gl.1]
    exact List.perm_append_comm.trans (List.Perm.of_eq (List.append_assoc _ _ _))

theorem forestInv_initial (freqMap : JsObject Nat) :
    forestInv (freqMap.map (fun e => (some e.1, e.2))) (initialNodes freqMap) := by
  refine ⟨?_, ?_⟩
  · intro n hn
    simp only [initialNodes, objectEntries, List.mem_map] at hn
    obtain ⟨e, _, rfl⟩ := hn
    exact goodNode_leaf e.1 e.2
  · apply List.Perm.of_eq
    simp only [initialNodes, objectEntries]
    induction freqMap with
    | nil => rfl
    | cons e rest ih =>
      simp only [List.map_cons, List.flatten_cons, ih]
      simp [HuffmanNode.leaf, HuffmanNode.leaves]

/-- The tree built from a non-empty table: a strict tree whose leaves are the entries of
the table and whose frequencies are consistent. -/
theorem buildHuffmanTree_good (t : JsObject Nat) (h : t ≠ []) :
    ∃ root, buildHuffmanTree t = Except.ok (some root)
      ∧ goodNode root
      ∧ root.leaves.Perm (t.map (fun e => (some e.1, e.2))) := by
  obtain ⟨root, hroot, hloop⟩ := buildHuffmanTree_eq t h
  have hinv := mergeLoop_preserves (forestInv (t.map (fun e => (some e.1, e.2))))
    (forestInv_mergeStep _) (initialNodes t).length (initialNodes t) (forestInv_initial t)
  rw [hloop] at hinv
  exact ⟨root, hroot, hinv.1 root (by simp), by simpa using hinv.2⟩

/-- **C10.** Tree shape invariant: for a non-empty frequency table `t`,
`buildHuffmanTree t` is a node and a strict binary tree (every node has two children and
`char = null`, or no child and a `char`); its leaves, with their `char` and `freq`, are the
entries of `t`, each once; the `freq` of every node is the sum of the `freq` of the leaves
of its subtree; and the `freq` of the root is the sum of all counts. -/
theorem buildHuffmanTree_shape (t : JsObject Nat) (h : t ≠ []) :
    ∃ root, buildHuffmanTree t = Except.ok (some root)
      ∧ root.isStrict = true
      ∧ root.leaves.Perm (t.map (fun e => (some e.1, e.2)))
      ∧ root.freqConsistent = true
      ∧ root.freq = (t.map Prod.snd).sum := by
  obtain ⟨root, hroot, hg, hp⟩ := buildHuffmanTree_good t h
  refine ⟨root, hroot, hg.1, hp, hg.2, ?_⟩
  rw [goodNode_freq root hg, (hp.map Prod.snd).sum_eq, List.map_map]
  rfl

/-- The table of "abacabad" is not empty, and its tree has the shape stated for C10. -/
theorem buildHuffmanTree_shape_witness :
    buildFrequencyMap "abacabad".toList ≠ []
    ∧ ∃ root, buildHuffmanTree (buildFrequencyMap "abacabad".toList) = Except.ok (some root)
      ∧ root.isStrict = true
      ∧ root.leaves.Perm ((buildFrequencyMap "abacabad".toList).map (fun e => (some e.1, e.2)))
      ∧ root.freqConsistent = true
      ∧ root.freq = ((buildFrequencyMap "abacabad".toList).map Prod.snd).sum :=
  ⟨by decide, buildHuffmanTree_shape (buildFrequencyMap "abacabad".toList) (by decide)⟩


/-! ## The code table -/

theorem generateCodes_eq_foldl (t : HuffmanNode) (currentCode : List Char)
    (codeMap : JsObject (List Char)) :
    generateCodes t currentCode codeMap
      = (codeWrites t currentCode).foldl (fun m e => objSet m e.1 e.2) codeMap := by
  induction t generalizing currentCode codeMap with
  | null => rfl
  | node char freq left right ihl ihr =>
    cases char with
    | none => simp [generateCodes, codeWrites, List.foldl_append, ihl, ihr]
    | some c => simp [generateCodes, codeWrites, List.foldl_append, ihl, ihr]

/-- An entry of a table made by a run of writes was written by one of them or was there
before. -/
theorem objGet_foldl_objSet (writes : List (Char × List Char)) (codeMap : JsObject (List Char))
    (c : Char) (x : List Char)
    (h : objGet (writes.foldl (fun m e => objSet m e.1 e.2) codeMap) c = some x) :
    (c, x) ∈ writes ∨ objGet codeMap c = some x := by
  induction writes generalizing codeMap with
  | nil => exact Or.inr h
  | cons w rest ih =>
    rcases ih _ h with h1 | h1
    · exact Or.inl (List.mem_cons_of_mem _ h1)
    · rw [objGet_objSet] at h1
      by_cases hk : w.1 = c
      · rw [if_pos hk] at h1
        left
        have hx : w.2 = x := Option.some.inj h1
        rw [← hk, ← hx]
        exact List.mem_cons_self _ _
      · rw [if_neg hk] at h1
        exact Or.inr h1

theorem codeWrites_extends (t : HuffmanNode) (currentCode : List Char) :
    ∀ e ∈ codeWrites t currentCode, currentCode <+: e.2 := by
  induction t generalizing currentCode with
  | null => simp [codeWrites]
  | node char freq left right ihl ihr =>
    intro e he
    simp only [codeWrites, List.mem_append] at he
    rcases he with (he | he) | he
    · cases char with
      | none => simp at he
      | some c =>
        simp only [List.mem_singleton] at he
        rw [he]
    · exact (List.prefix_append currentCode ['0']).trans (ihl _ e he)
    · exact (List.prefix_append currentCode ['1']).trans (ihr _ e he)

theorem not_both_extend (currentCode x : List Char) (h0 : currentCode ++ ['0'] <+: x)
    (h1 : currentCode ++ ['1'] <+: x) : False := by
  obtain ⟨r0, e0⟩ := h0
  obtain ⟨r1, e1⟩ := h1
  rw [← e1, List.append_assoc, List.append_assoc, List.append_cancel_left_eq] at e0
  simp at e0

/-- In a strict tree, no two writes of `generateHuffmanCodes` have codes of which one is
a prefix of the other. -/
theorem codeWrites_pairwise (t : HuffmanNode) (h : t.isStrict = true)
    (currentCode : List Char) :
    (codeWrites t currentCode).Pairwise (fun e1 e2 => ¬ e1.2 <+: e2.2 ∧ ¬ e2.2 <+: e1.2) := by
  induction t generalizing currentCode with
  | null => simp [codeWrites]
  | node char freq left right ihl ihr =>
    cases char with
    | some c =>
      cases left <;> cases right <;> simp [HuffmanNode.isStrict] at h
      simp [codeWrites]
    | none =>
      cases hl : left with
      | null => simp [HuffmanNode.isStrict, hl] at h
      | node c1 f1 l1 r1 =>
        cases hr : right with
        | null => simp [HuffmanNode.isStrict, hl, hr] at h
        | node c2 f2 l2 r2 =>
          simp only [HuffmanNode.isStrict, hl, hr, Bool.and_eq_true] at h
          rw [← hl, ← hr]
          simp only [codeWrites, List.nil_append]
          rw [List.pairwise_append]
          refine ⟨ihl (hl ▸ h.1) _, ihr (hr ▸ h.2) _, ?_⟩
          intro e1 he1 e2 he2
          have p1 := codeWrites_extends left _ e1 he1
          have p2 := codeWrites_extends right _ e2 he2
          constructor
          · intro hp
            exact not_both_extend currentCode e2.2 (p1.trans hp) p2
          · intro hp
            exact not_both_extend currentCode e1.2 p1 (p2.trans hp)

theorem generateHuffmanCodes_of_strict (root : HuffmanNode) (h : root.isStrict = true) :
    generateHuffmanCodes (some root) = Except.ok (some (generateCodes root [] [])) := by
  cases root with
  | null => simp [HuffmanNode.isStrict] at h
  | node char freq left right => rfl

/-- **C2.** Prefix-free: for a non-empty frequency table `t`, `buildHuffmanTree t` is a
node, `generateHuffmanCodes` returns a code table for it, and in that table the code of a
symbol is never a prefix of the code of a different symbol (so two different symbols never
have the same code). -/
theorem generateHuffmanCodes_prefix_free (t : JsObject Nat) (h : t ≠ []) :
    ∃ codes, (buildHuffmanTree t).bind generateHuffmanCodes = Except.ok (some codes)
      ∧ ∀ c d x y, c ≠ d → objGet codes c = some x → objGet codes d = some y →
          ¬ x <+: y := by
  obtain ⟨root, hroot, ⟨hstrict, -⟩, -⟩ := buildHuffmanTree_good t h
  refine ⟨generateCodes root [] [], ?_, ?_⟩
  · rw [hroot]
    exact generateHuffmanCodes_of_strict root hstrict
  · intro c d x y hcd hx hy
    rw [generateCodes_eq_foldl] at hx hy
    have mx : (c, x) ∈ codeWrites root [] := by
      rcases objGet_foldl_objSet _ _ _ _ hx with h1 | h1
      · exact h1
      · simp [objGet] at h1
    have my : (d, y) ∈ codeWrites root [] := by
      rcases objGet_foldl_objSet _ _ _ _ hy with h1 | h1
      · exact h1
      · simp [objGet] at h1
    have hpw := codeWrites_pairwise root hstrict []
    have hne : (c, x) ≠ (d, y) := fun he => hcd (congrArg Prod.fst he)
    have hsym : Symmetric (fun e1 e2 : Char × List Char => ¬ e1.2 <+: e2.2 ∧ ¬ e2.2 <+: e1.2) :=
      fun _ _ hab => ⟨hab.2, hab.1⟩
    exact (hpw.forall hsym mx my hne).1

/-- The table of "abacabad" is not empty, and its code table is prefix-free. -/
theorem generateHuffmanCodes_prefix_free_witness :
    buildFrequencyMap "abacabad".toList ≠ []
    ∧ ∃ codes, (buildHuffmanTree (buildFrequencyMap "abacabad".toList)).bind
          generateHuffmanCodes = Except.ok (some codes)
      ∧ ∀ c d x y, c ≠ d → objGet codes c = some x → objGet codes d = some y →
          ¬ x <+: y :=
  ⟨by decide, generateHuffmanCodes_prefix_free (buildFrequencyMap "abacabad".toList) (by decide)⟩


/-! ## Packing: the text that `compressString` returns -/

theorem compressLoop_eq (codes : JsObject (List Char)) (str compressed : List Char) :
    compressLoop codes str compressed
      = compressed ++ (str.map (fun c => codeText (objGet codes c))).flatten := by
  induction str generalizing compressed with
  | nil => simp [compressLoop]
  | cons c rest ih => simp [compressLoop, ih, List.append_assoc]

/-- **C9, as the code has it.** For every input and every code table, `compressString`
raises no error: it returns the concatenation, in input order, of the code of every symbol
that has an entry and of the nine characters `undefined` for every symbol that has none. -/
theorem compressString_total (s : List Char) (codes : JsObject (List Char)) :
    compressString s (some codes)
      = Except.ok ((s.map (fun c => codeText (objGet codes c))).flatten)
    ∧ codeText none = ['u', 'n', 'd', 'e', 'f', 'i', 'n', 'e', 'd']
    ∧ ∀ code, codeText (some code) = code := by
  refine ⟨?_, rfl, fun _ => rfl⟩
  cases s with
  | nil => rfl
  | cons c rest =>
    show Except.ok (compressLoop codes (c :: rest) []) = _
    rw [compressLoop_eq]
    rfl

/-- **C9, counterexample.** The symbol `a` has no entry in the empty code table, and
`compressString` returns the text `undefined` for the input "a" instead of raising. -/
theorem compressString_unknown_symbol :
    objGet ([] : JsObject (List Char)) 'a' = none
    ∧ compressString ['a'] (some []) = Except.ok "undefined".toList
    ∧ ∀ e, compressString ['a'] (some []) ≠ Except.error e :=
  ⟨by decide, by decide, fun _ h => Except.noConfusion
    ((show compressString ['a'] (some []) = Except.ok "undefined".toList by decide).symm.trans h)⟩

/-- **C5, counterexample.** On the empty table `buildHuffmanTree` raises no error: it
returns `undefined`. -/
theorem buildHuffmanTree_empty_returns :
    buildHuffmanTree [] = Except.ok none ∧ ∀ e, buildHuffmanTree [] ≠ Except.error e :=
  ⟨by decide, fun _ h => Except.noConfusion
    ((show buildHuffmanTree [] = Except.ok none by decide).symm.trans h)⟩

/-- **C5, as the code has it.** The table of the empty input is empty; on the empty table
`buildHuffmanTree` returns `undefined`, neither an error nor a node; the error comes from
`generateHuffmanCodes`, which raises a `TypeError` on an `undefined` root, so that
generating the codes of the tree built for the empty table fails. -/
theorem buildHuffmanTree_empty :
    buildFrequencyMap [] = []
    ∧ buildHuffmanTree [] = Except.ok none
    ∧ generateHuffmanCodes none = Except.error JsError.typeError
    ∧ (buildHuffmanTree (buildFrequencyMap [])).bind generateHuffmanCodes
        = Except.error JsError.typeError := by
  decide

/-- **C1, at the failing input.** For the input "aaaa" the tree is a single leaf, the code
of `a` is the empty string, the encoded bit string is empty, and decoding it with the tree
returns the empty string, not "aaaa". -/
theorem roundTrip_single_symbol :
    buildHuffmanTree (buildFrequencyMap "aaaa".toList)
      = Except.ok (some (HuffmanNode.leaf 'a' 4))
    ∧ generateHuffmanCodes (some (HuffmanNode.leaf 'a' 4)) = Except.ok (some [('a', [])])
    ∧ compressString "aaaa".toList (some [('a', [])]) = Except.ok []
    ∧ decompressString [] (HuffmanNode.leaf 'a' 4) = Except.ok []
    ∧ decompressString [] (HuffmanNode.leaf 'a' 4) ≠ Except.ok "aaaa".toList := by
  decide

/-- **C6, at the failing input.** For the input "aaaa" the frequency table is `{a: 4}` and
the tree is a single leaf, but the code table gives `a` the empty code, not "0"; the encoded
stream has 0 bits, not 4, and is packed into 0 bytes, not 1. -/
theorem single_symbol_code_empty :
    buildFrequencyMap "aaaa".toList = [('a', 4)]
    ∧ buildHuffmanTree [('a', 4)] = Except.ok (some (HuffmanNode.node (some 'a') 4
        HuffmanNode.null HuffmanNode.null))
    ∧ (buildHuffmanTree [('a', 4)]).bind generateHuffmanCodes = Except.ok (some [('a', [])])
    ∧ objGet [('a', ([] : List Char))] 'a' ≠ some ['0']
    ∧ compressString "aaaa".toList (some [('a', [])]) = Except.ok []
    ∧ packBytes [] = []
    ∧ binaryToBase64 [] = [] := by
  decide

/-- **C7.** Known example: for the input "abacabad" the table is a:4, b:2, c:1, d:1; the
code of `a` has length 1, the code of `b` length 2, the codes of `c` and `d` length 3;
`compressString` returns a string of exactly 14 binary digits; and `binaryToBase64` packs
them into exactly 2 bytes, which spell the 14 digits followed by 2 zero bits. -/
theorem abacabad_example :
    buildFrequencyMap "abacabad".toList = [('a', 4), ('b', 2), ('c', 1), ('d', 1)]
    ∧ ∃ codes bits,
      (buildHuffmanTree (buildFrequencyMap "abacabad".toList)).bind generateHuffmanCodes
        = Except.ok (some codes)
      ∧ (objGet codes 'a').map List.length = some 1
      ∧ (objGet codes 'b').map List.length = some 2
      ∧ (objGet codes 'c').map List.length = some 3
      ∧ (objGet codes 'd').map List.length = some 3
      ∧ compressString "abacabad".toList (some codes) = Except.ok bits
      ∧ bits.length = 14
      ∧ (packBytes bits).length = 2
      ∧ ((packBytes bits).map byteBits).flatten = bits ++ ['0', '0']
      ∧ binaryToBase64 bits = "TJw=".toList :=
  ⟨by decide, [('a', "0".toList), ('b', "10".toList), ('c', "110".toList),
    ('d', "111".toList)], "01001100100111".toList, by decide⟩


/-! ## Decoding what was encoded, for a root that is not a leaf -/

theorem objGet_foldl_of_not_mem (writes : List (Char × List Char)) (codeMap : JsObject (List Char))
    (c : Char) (h : c ∉ writes.map Prod.fst) :
    objGet (writes.foldl (fun m e => objSet m e.1 e.2) codeMap) c = objGet codeMap c := by
  induction writes generalizing codeMap with
  | nil => rfl
  | cons w rest ih =>
    simp only [List.map_cons, List.mem_cons, not_or] at h
    rw [List.foldl_cons, ih _ h.2, objGet_objSet, if_neg (Ne.symm h.1)]

/-- When no key is written twice, the table holds every write. -/
theorem objGet_foldl_of_mem (writes : List (Char × List Char)) (codeMap : JsObject (List Char))
    (hnd : (writes.map Prod.fst).Nodup) (c : Char) (x : List Char) (h : (c, x) ∈ writes) :
    objGet (writes.foldl (fun m e => objSet m e.1 e.2) codeMap) c = some x := by
  induction writes generalizing codeMap with
  | nil => cases h
  | cons w rest ih =>
    simp only [List.map_cons, List.nodup_cons] at hnd
    rcases List.mem_cons.1 h with h1 | h1
    · subst h1
      rw [List.foldl_cons, objGet_foldl_of_not_mem _ _ _ hnd.1, objGet_objSet, if_pos rfl]
    · rw [List.foldl_cons]
      exact ih _ hnd.2 h1

/-- In a strict tree the keys written by `generateHuffmanCodes` are the symbols of the
leaves, left to right. -/
theorem codeWrites_keys (t : HuffmanNode) (h : t.isStrict = true) (currentCode : List Char) :
    (codeWrites t currentCode).map (fun e => some e.1) = t.leaves.map Prod.fst := by
  induction t generalizing currentCode with
  | null => simp [HuffmanNode.isStrict] at h
  | node char freq left right ihl ihr =>
    cases char with
    | some c =>
      cases left <;> cases right <;> simp [HuffmanNode.isStrict] at h
      simp [codeWrites, HuffmanNode.leaves]
    | none =>
      cases hl : left with
      | null => simp [HuffmanNode.isStrict, hl] at h
      | node c1 f1 l1 r1 =>
        cases hr : right with
        | null => simp [HuffmanNode.isStrict, hl, hr] at h
        | node c2 f2 l2 r2 =>
          simp only [HuffmanNode.isStrict, hl, hr, Bool.and_eq_true] at h
          have e1 := ihl (hl ▸ h.1) (currentCode ++ ['0'])
          have e2 := ihr (hr ▸ h.2) (currentCode ++ ['1'])
          rw [hl] at e1
          rw [hr] at e2
          simp only [codeWrites, List.nil_append, List.map_append, HuffmanNode.leaves] at e1 e2 ⊢
          rw [e1, e2]

/-- Walking down a strict tree along the code of a symbol: from a node that is not a leaf,
the bits written after `currentCode` lead the decoder to the leaf of the symbol, which it
emits before going back to the root. -/
theorem decompressLoop_code (root t : HuffmanNode) (h : t.isStrict = true)
    (currentCode : List Char) (c : Char) (p : List Char)
    (hm : (c, p) ∈ codeWrites t currentCode) :
    (∃ f, t = HuffmanNode.node (some c) f HuffmanNode.null HuffmanNode.null ∧ p = currentCode)
    ∨ (∃ f l r q, t = HuffmanNode.node none f l r ∧ p = currentCode ++ q
        ∧ ∀ rest result, decompressLoop root (q ++ rest) t result
            = decompressLoop root rest root (result ++ [c])) := by
  induction t generalizing currentCode with
  | null => simp [HuffmanNode.isStrict] at h
  | node char freq left right ihl ihr =>
    cases char with
    | some c0 =>
      cases left <;> cases right <;> simp [HuffmanNode.isStrict] at h
      simp only [codeWrites, List.append_nil, List.mem_singleton, Prod.mk.injEq] at hm
      left
      exact ⟨freq, by rw [hm.1], hm.2⟩
    | none =>
      right
      cases hl : left with
      | null => simp [HuffmanNode.isStrict, hl] at h
      | node c1 f1 l1 r1 =>
        cases hr : right with
        | null => simp [HuffmanNode.isStrict, hl, hr] at h
        | node c2 f2 l2 r2 =>
          simp only [HuffmanNode.isStrict, hl, hr, Bool.and_eq_true] at h
          simp only [codeWrites, List.nil_append, List.mem_append] at hm
          rcases hm with hm | hm
          · rcases ihl (hl ▸ h.1) _ hm with ⟨f, e, hp⟩ | ⟨f, l, r, q, e, hp, hq⟩
            · refine ⟨freq, _, _, ['0'], rfl, hp, ?_⟩
              intro rest result
              rw [hl] at e
              cases e
              simp [decompressLoop]
            · refine ⟨freq, _, _, '0' :: q, rfl, by simp [hp], ?_⟩
              intro rest result
              rw [hl] at e
              rw [← hq rest result, hl, e]
              cases e
              simp [decompressLoop]
          · rcases ihr (hr ▸ h.2) _ hm with ⟨f, e, hp⟩ | ⟨f, l, r, q, e, hp, hq⟩
            · refine ⟨freq, _, _, ['1'], rfl, hp, ?_⟩
              intro rest result
              rw [hr] at e
              cases e
              simp [decompressLoop]
            · refine ⟨freq, _, _, '1' :: q, rfl, by simp [hp], ?_⟩
              intro rest result
              rw [hr] at e
              rw [← hq rest result, hr, e]
              cases e
              simp [decompressLoop]

/-- Decoding, with a strict tree whose root is not a leaf and whose leaves carry distinct
symbols, the codes of a string of symbols of the tree gives the string back. -/
theorem decompressString_codes (root : HuffmanNode) (h : root.isStrict = true)
    (f : Nat) (l r : HuffmanNode) (hroot : root = HuffmanNode.node none f l r)
    (hnd : ((codeWrites root []).map Prod.fst).Nodup)
    (s : List Char) (hs : ∀ c ∈ s, c ∈ (codeWrites root []).map Prod.fst) :
    compressString s (some (generateCodes root [] []))
      = Except.ok ((s.map (fun c => codeText (objGet (generateCodes root [] []) c))).flatten)
    ∧ decompressString
        ((s.map (fun c => codeText (objGet (generateCodes root [] []) c))).flatten) root
      = Except.ok s := by
  refine ⟨?_, ?_⟩
  · cases s with
    | nil => rfl
    | cons c rest =>
      show Except.ok (compressLoop _ (c :: rest) []) = _
      rw [compressLoop_eq]
      rfl
  · have key : ∀ (s : List Char), (∀ c ∈ s, c ∈ (codeWrites root []).map Prod.fst) →
        ∀ result, decompressLoop root
          ((s.map (fun c => codeText (objGet (generateCodes root [] []) c))).flatten) root result
          = Except.ok (result ++ s) := by
      intro s
      induction s with
      | nil => intro _ result; simp [decompressLoop]
      | cons c rest ih =>
        intro hs result
        obtain ⟨e, he, hc⟩ := List.mem_map.1 (hs c (List.mem_cons_self _ _))
        have hmem : (c, e.2) ∈ codeWrites root [] := by
          rw [← hc]
          exact he
        have hget : objGet (generateCodes root [] []) c = some e.2 := by
          rw [generateCodes_eq_foldl]
          exact objGet_foldl_of_mem _ _ hnd c e.2 hmem
        rcases decompressLoop_code root root h [] c e.2 hmem with
          ⟨f2, e2, _⟩ | ⟨f2, l2, r2, q, _, hp, hq⟩
        · rw [hroot] at e2
          cases e2
        · simp only [List.nil_append] at hp
          simp only [List.map_cons, List.flatten_cons, hget]
          rw [show codeText (some e.2) = q from hp, hq,
            ih (fun c hc => hs c (List.mem_cons_of_mem _ hc))]
          simp
    have := key s hs []
    simpa [decompressString] using this

/-- Round trip for an input with two different symbols: the tree is built, the codes are
generated, the input is encoded, and decoding the encoded bits with the tree returns the
input. -/
theorem decompress_compress_of_two_symbols (s : List Char) (a b : Char) (ha : a ∈ s)
    (hb : b ∈ s) (hab : a ≠ b) :
    ∃ root codes bits,
      buildHuffmanTree (buildFrequencyMap s) = Except.ok (some root)
      ∧ generateHuffmanCodes (some root) = Except.ok (some codes)
      ∧ compressString s (some codes) = Except.ok bits
      ∧ decompressString bits root = Except.ok s := by
  have hne : buildFrequencyMap s ≠ [] := by
    intro h0
    have := (buildFrequencyMap_mem_keys s a).2 ha
    rw [h0] at this
    simp at this
  obtain ⟨root, hroot, ⟨hstrict, hcons⟩, hp⟩ := buildHuffmanTree_good _ hne
  have hkeys : ((codeWrites root []).map (fun e => some e.1)).Perm
      ((buildFrequencyMap s).map (fun e => some e.1)) := by
    rw [codeWrites_keys root hstrict []]
    simpa [List.map_map, Function.comp] using hp.map Prod.fst
  have hkeys2 : ((codeWrites root []).map Prod.fst).Perm ((buildFrequencyMap s).map Prod.fst) := by
    have h1 : (((codeWrites root []).map Prod.fst).map some).Perm
        (((buildFrequencyMap s).map Prod.fst).map some) := by
      simpa [List.map_map, Function.comp] using hkeys
    have h2 := h1.filterMap id
    simpa [List.filterMap_map] using h2
  have hnd : ((codeWrites root []).map Prod.fst).Nodup :=
    hkeys2.nodup_iff.2 (buildFrequencyMap_nodup s)
  have hs : ∀ c ∈ s, c ∈ (codeWrites root []).map Prod.fst := fun c hc =>
    hkeys2.mem_iff.2 ((buildFrequencyMap_mem_keys s c).2 hc)
  have hinternal : ∃ f l r, root = HuffmanNode.node none f l r := by
    obtain ⟨ea, hea, hca⟩ := List.mem_map.1 (hs a ha)
    obtain ⟨eb, heb, hcb⟩ := List.mem_map.1 (hs b hb)
    rcases decompressLoop_code root root hstrict [] ea.1 ea.2 hea with
      ⟨f2, e2, _⟩ | ⟨f2, l2, r2, q, e2, _, _⟩
    · rcases decompressLoop_code root root hstrict [] eb.1 eb.2 heb with
        ⟨f3, e3, _⟩ | ⟨f3, l3, r3, q, e3, _, _⟩
      · rw [e2] at e3
        injection e3 with h1
        injection h1 with h1
        exact absurd (hca.symm.trans (h1.trans hcb)) hab
      · exact ⟨f3, l3, r3, e3⟩
    · exact ⟨f2, l2, r2, e2⟩
  obtain ⟨f, l, r, hr⟩ := hinternal
  obtain ⟨h1, h2⟩ := decompressString_codes root hstrict f l r hr hnd s hs
  exact ⟨root, generateCodes root [] [], _, hroot,
    generateHuffmanCodes_of_strict root hstrict, h1, h2⟩


/-! ## Codes are leaf paths -/

theorem isStrict_internal (f : Nat) (l r : HuffmanNode)
    (h : (HuffmanNode.node none f l r).isStrict = true) :
    l.isStrict = true ∧ r.isStrict = true := by
  cases l with
  | null => simp [HuffmanNode.isStrict] at h
  | node c1 f1 l1 r1 =>
    cases r with
    | null => simp [HuffmanNode.isStrict] at h
    | node c2 f2 l2 r2 =>
      simp only [HuffmanNode.isStrict, Bool.and_eq_true] at h
      simpa [HuffmanNode.isStrict] using h

theorem isStrict_leaf (c : Char) (f : Nat) (l r : HuffmanNode)
    (h : (HuffmanNode.node (some c) f l r).isStrict = true) :
    l = HuffmanNode.null ∧ r = HuffmanNode.null := by
  cases l <;> cases r <;> simp [HuffmanNode.isStrict] at h
  exact ⟨rfl, rfl⟩

theorem isStrict_ne_null (t : HuffmanNode) (h : t.isStrict = true) : t ≠ HuffmanNode.null := by
  intro h0
  rw [h0] at h
  simp [HuffmanNode.isStrict] at h

theorem leafPaths_node (c : Option Char) (f : Nat) (l r : HuffmanNode)
    (h : l ≠ HuffmanNode.null) :
    (HuffmanNode.node c f l r).leafPaths
      = l.leafPaths.map (fun e => (e.1, '0' :: e.2))
        ++ r.leafPaths.map (fun e => (e.1, '1' :: e.2)) := by
  cases l with
  | null => exact absurd rfl h
  | node c1 f1 l1 r1 => rfl

theorem leaves_node (c : Option Char) (f : Nat) (l r : HuffmanNode)
    (h : l ≠ HuffmanNode.null) :
    (HuffmanNode.node c f l r).leaves = l.leaves ++ r.leaves := by
  cases l with
  | null => exact absurd rfl h
  | node c1 f1 l1 r1 => rfl

theorem codeWrites_internal (f : Nat) (l r : HuffmanNode) (currentCode : List Char) :
    codeWrites (HuffmanNode.node none f l r) currentCode
      = codeWrites l (currentCode ++ ['0']) ++ codeWrites r (currentCode ++ ['1']) := by
  simp [codeWrites]

theorem leafPaths_keys (t : HuffmanNode) (h : t.isStrict = true) :
    t.leafPaths.map Prod.fst = t.leaves.map Prod.fst := by
  induction t with
  | null => rfl
  | node char freq left right ihl ihr =>
    cases char with
    | some c =>
      obtain ⟨h1, h2⟩ := isStrict_leaf c freq left right h
      subst h1 h2
      rfl
    | none =>
      obtain ⟨h1, h2⟩ := isStrict_internal freq left right h
      rw [leafPaths_node _ _ _ _ (isStrict_ne_null _ h1), leaves_node _ _ _ _ (isStrict_ne_null _ h1)]
      simp only [List.map_append, List.map_map, ← ihl h1, ← ihr h2]
      rfl

/-- In a strict tree the writes of `generateHuffmanCodes` are the root-to-leaf paths, after
the code with which it was called. -/
theorem codeWrites_eq_leafPaths (t : HuffmanNode) (h : t.isStrict = true)
    (currentCode : List Char) :
    (codeWrites t currentCode).map (fun e => (some e.1, e.2))
      = t.leafPaths.map (fun e => (e.1, currentCode ++ e.2)) := by
  induction t generalizing currentCode with
  | null => simp [HuffmanNode.isStrict] at h
  | node char freq left right ihl ihr =>
    cases char with
    | some c =>
      obtain ⟨h1, h2⟩ := isStrict_leaf c freq left right h
      subst h1 h2
      simp [codeWrites, HuffmanNode.leafPaths]
    | none =>
      obtain ⟨h1, h2⟩ := isStrict_internal freq left right h
      rw [leafPaths_node _ _ _ _ (isStrict_ne_null _ h1), codeWrites_internal, List.map_append,
        ihl h1, ihr h2]
      simp only [List.map_append, List.map_map, List.append_assoc, List.singleton_append]
      rfl

/-- The keys of a table made by writes of distinct new keys are the old keys and the
written keys. -/
theorem foldl_objSet_keys (writes : List (Char × List Char)) (codeMap : JsObject (List Char))
    (hnd : (writes.map Prod.fst).Nodup)
    (hnew : ∀ k ∈ writes.map Prod.fst, k ∉ codeMap.map Prod.fst) :
    ((writes.foldl (fun m e => objSet m e.1 e.2) codeMap).map Prod.fst).Perm
      (codeMap.map Prod.fst ++ writes.map Prod.fst) := by
  induction writes generalizing codeMap with
  | nil => simp
  | cons w rest ih =>
    simp only [List.map_cons, List.nodup_cons] at hnd
    have hw : w.1 ∉ codeMap.map Prod.fst := hnew w.1 (by simp)
    have hk := objSet_keys codeMap w.1 w.2
    rw [if_neg hw] at hk
    have hnew2 : ∀ k ∈ rest.map Prod.fst, k ∉ (objSet codeMap w.1 w.2).map Prod.fst := by
      intro k hk2 hin
      have := hk.subset hin
      rcases List.mem_cons.1 this with h1 | h1
      · exact hnd.1 (h1 ▸ hk2)
      · exact hnew k (by simp [List.mem_map.1 hk2]) h1
    have := ih (objSet codeMap w.1 w.2) hnd.2 hnew2
    rw [List.foldl_cons]
    refine this.trans ?_
    refine (List.Perm.append_right _ hk).trans ?_
    simp only [List.map_cons, List.cons_append]
    exact List.perm_middle.symm

/-- The writes of `generateHuffmanCodes` on the tree built from a table with distinct keys:
the tree, the keys written (the keys of the table, each once). -/
theorem buildHuffmanTree_writes (t : JsObject Nat) (h : t ≠ [])
    (hnd : (t.map Prod.fst).Nodup) :
    ∃ root, buildHuffmanTree t = Except.ok (some root)
      ∧ goodNode root
      ∧ root.leaves.Perm (t.map (fun e => (some e.1, e.2)))
      ∧ ((codeWrites root []).map Prod.fst).Perm (t.map Prod.fst)
      ∧ ((codeWrites root []).map Prod.fst).Nodup := by
  obtain ⟨root, hroot, hgood, hp⟩ := buildHuffmanTree_good t h
  have hkeys : ((codeWrites root []).map (fun e => some e.1)).Perm
      (t.map (fun e => some e.1)) := by
    rw [codeWrites_keys root hgood.1 []]
    simpa [List.map_map, Function.comp] using hp.map Prod.fst
  have hkeys2 : ((codeWrites root []).map Prod.fst).Perm (t.map Prod.fst) := by
    have h1 : (((codeWrites root []).map Prod.fst).map some).Perm
        ((t.map Prod.fst).map some) := by
      simpa [List.map_map, Function.comp] using hkeys
    have h2 := h1.filterMap id
    simpa [List.filterMap_map] using h2
  exact ⟨root, hroot, hgood, hp, hkeys2, hkeys2.nodup_iff.2 hnd⟩

/-- **C11.** Codes are leaf paths: for a table `t` with at least two entries (and, being a
table, distinct keys), `buildHuffmanTree t` is a node and `generateHuffmanCodes` returns for
it a table whose keys are the symbols of `t`, each once, and in which `p` is the code of `c`
exactly when `p` is the root-to-leaf path, written with `0` for left and `1` for right, of
a leaf with symbol `c`; every symbol of `t` is the symbol of exactly one leaf. -/
theorem generateHuffmanCodes_leaf_paths (t : JsObject Nat) (hnd : (t.map Prod.fst).Nodup)
    (h2 : 2 ≤ t.length) :
    ∃ root codes, buildHuffmanTree t = Except.ok (some root)
      ∧ generateHuffmanCodes (some root) = Except.ok (some codes)
      ∧ (codes.map Prod.fst).Perm (t.map Prod.fst)
      ∧ (codes.map Prod.fst).Nodup
      ∧ (root.leafPaths.map Prod.fst).Perm (t.map (fun e => some e.1))
      ∧ ∀ c p, objGet codes c = some p ↔ (some c, p) ∈ root.leafPaths := by
  have hne : t ≠ [] := by
    intro h0
    rw [h0] at h2
    simp at h2
  obtain ⟨root, hroot, hgood, hp, hk, hknd⟩ := buildHuffmanTree_writes t hne hnd
  have hcodes : ((generateCodes root [] []).map Prod.fst).Perm
      ((codeWrites root []).map Prod.fst) := by
    rw [generateCodes_eq_foldl]
    simpa using foldl_objSet_keys (codeWrites root []) [] hknd (by simp)
  have hpaths := codeWrites_eq_leafPaths root hgood.1 []
  simp only [List.nil_append, Prod.mk.eta, List.map_id'] at hpaths
  refine ⟨root, generateCodes root [] [], hroot, generateHuffmanCodes_of_strict root hgood.1,
    hcodes.trans hk, hcodes.nodup_iff.2 hknd, ?_, ?_⟩
  · rw [leafPaths_keys root hgood.1]
    simpa [List.map_map, Function.comp] using hp.map Prod.fst
  · intro c p
    rw [← hpaths, generateCodes_eq_foldl]
    constructor
    · intro hget
      rcases objGet_foldl_objSet _ _ _ _ hget with h1 | h1
      · exact List.mem_map.2 ⟨(c, p), h1, rfl⟩
      · simp [objGet] at h1
    · intro hmem
      obtain ⟨e, he, heq⟩ := List.mem_map.1 hmem
      have h1 : e = (c, p) := by
        obtain ⟨e1, e2⟩ := e
        simp only [Prod.mk.injEq, Option.some.injEq] at heq
        rw [heq.1, heq.2]
      rw [h1] at he
      exact objGet_foldl_of_mem _ _ hknd c p he

/-- The table a:4, b:2, c:1, d:1 has distinct keys and four entries, and its codes are the
paths of the leaves of its tree. -/
theorem generateHuffmanCodes_leaf_paths_witness :
    ([('a', 4), ('b', 2), ('c', 1), ('d', 1)].map Prod.fst).Nodup
    ∧ 2 ≤ [('a', 4), ('b', 2), ('c', 1), ('d', 1)].length
    ∧ ∃ root codes, buildHuffmanTree [('a', 4), ('b', 2), ('c', 1), ('d', 1)]
        = Except.ok (some root)
      ∧ generateHuffmanCodes (some root) = Except.ok (some codes)
      ∧ (codes.map Prod.fst).Perm ([('a', 4), ('b', 2), ('c', 1), ('d', 1)].map Prod.fst)
      ∧ (codes.map Prod.fst).Nodup
      ∧ (root.leafPaths.map Prod.fst).Perm
          ([('a', 4), ('b', 2), ('c', 1), ('d', 1)].map (fun e => some e.1))
      ∧ ∀ c p, objGet codes c = some p ↔ (some c, p) ∈ root.leafPaths :=
  ⟨by decide, by decide,
    generateHuffmanCodes_leaf_paths [('a', 4), ('b', 2), ('c', 1), ('d', 1)] (by decide)
      (by decide)⟩


/-! ## The decoder on a strict tree -/

/-- A strict tree with two leaves or more has a root with two children. -/
theorem isStrict_root_internal (root : HuffmanNode) (h : root.isStrict = true)
    (h2 : 2 ≤ root.leaves.length) :
    ∃ f l r, root = HuffmanNode.node none f l r := by
  cases root with
  | null => simp [HuffmanNode.isStrict] at h
  | node char freq left right =>
    cases char with
    | none => exact ⟨freq, left, right, rfl⟩
    | some c =>
      obtain ⟨h3, h4⟩ := isStrict_leaf c freq left right h
      subst h3 h4
      simp [HuffmanNode.leaves] at h2

/-- A strict node is a leaf with a symbol or a node with two strict children. -/
theorem isStrict_cases (t : HuffmanNode) (h : t.isStrict = true) :
    (∃ c f, t = HuffmanNode.node (some c) f HuffmanNode.null HuffmanNode.null)
    ∨ (∃ f l r, t = HuffmanNode.node none f l r ∧ l.isStrict = true ∧ r.isStrict = true) := by
  cases t with
  | null => simp [HuffmanNode.isStrict] at h
  | node char freq left right =>
    cases char with
    | none =>
      obtain ⟨h1, h2⟩ := isStrict_internal freq left right h
      exact Or.inr ⟨freq, left, right, rfl, h1, h2⟩
    | some c =>
      obtain ⟨h3, h4⟩ := isStrict_leaf c freq left right h
      subst h3 h4
      exact Or.inl ⟨c, freq, rfl⟩

/-- A pass of the decoding loop that moves to a leaf emits its symbol and goes back to the
root. -/
theorem decompressLoop_step_leaf (root : HuffmanNode) (c0 : Option Char) (f : Nat)
    (l r : HuffmanNode) (bit : Char) (rest result : List Char) (c : Char) (f2 : Nat)
    (hchild : (if bit = '0' then l else r)
      = HuffmanNode.node (some c) f2 HuffmanNode.null HuffmanNode.null) :
    decompressLoop root (bit :: rest) (HuffmanNode.node c0 f l r) result
      = decompressLoop root rest root (result ++ [c]) := by
  simp only [decompressLoop, hchild]

/-- A pass of the decoding loop that moves to a node without symbol goes on from there. -/
theorem decompressLoop_step_internal (root : HuffmanNode) (c0 : Option Char) (f : Nat)
    (l r : HuffmanNode) (bit : Char) (rest result : List Char) (f2 : Nat)
    (l2 r2 : HuffmanNode)
    (hchild : (if bit = '0' then l else r) = HuffmanNode.node none f2 l2 r2) :
    decompressLoop root (bit :: rest) (HuffmanNode.node c0 f l r) result
      = decompressLoop root rest (HuffmanNode.node none f2 l2 r2) result := by
  simp only [decompressLoop, hchild]

theorem leafPaths_leaf (c : Option Char) (f : Nat) :
    (HuffmanNode.node c f HuffmanNode.null HuffmanNode.null).leafPaths = [(c, [])] := rfl

/-- The paths of a node with two strict children. -/
theorem mem_leafPaths_internal (f : Nat) (l r : HuffmanNode) (hl : l.isStrict = true)
    (e : Option Char × List Char) (he : e ∈ (HuffmanNode.node none f l r).leafPaths) :
    (∃ q, e.2 = '0' :: q ∧ (e.1, q) ∈ l.leafPaths)
    ∨ (∃ q, e.2 = '1' :: q ∧ (e.1, q) ∈ r.leafPaths) := by
  rw [leafPaths_node _ _ _ _ (isStrict_ne_null _ hl), List.mem_append] at he
  rcases he with he | he
  · obtain ⟨e0, h0, rfl⟩ := List.mem_map.1 he
    exact Or.inl ⟨e0.2, rfl, h0⟩
  · obtain ⟨e0, h0, rfl⟩ := List.mem_map.1 he
    exact Or.inr ⟨e0.2, rfl, h0⟩

/-- Reading the whole path of a leaf from a node that is not a leaf emits the symbol of the
leaf and leaves the decoder at the root. -/
theorem decompressLoop_path (root t : HuffmanNode) (h : t.isStrict = true)
    (f : Nat) (l r : HuffmanNode) (ht : t = HuffmanNode.node none f l r)
    (c : Char) (q : List Char) (hq : (some c, q) ∈ t.leafPaths) (rest result : List Char) :
    decompressLoop root (q ++ rest) t result
      = decompressLoop root rest root (result ++ [c]) := by
  induction t generalizing f l r q with
  | null => simp [HuffmanNode.isStrict] at h
  | node char freq left right ihl ihr =>
    injection ht with h1 h2 h3 h4
    subst h1 h2 h3 h4
    obtain ⟨hl, hr⟩ := isStrict_internal _ _ _ h
    rcases mem_leafPaths_internal _ _ _ hl _ hq with ⟨q2, e2, hm⟩ | ⟨q2, e2, hm⟩
    · simp only at e2 hm
      subst e2
      rcases isStrict_cases left hl with ⟨c1, f1, e1⟩ | ⟨f1, l1, r1, e1, -, -⟩
      · subst e1
        rw [leafPaths_leaf, List.mem_singleton] at hm
        injection hm with hm1 hm2
        injection hm1 with hm1
        subst hm1 hm2
        exact decompressLoop_step_leaf root _ _ _ _ '0' _ _ _ f1 (by simp)
      · rw [List.cons_append,
          decompressLoop_step_internal root _ _ _ _ '0' _ _ f1 l1 r1 (by simp [e1]), ← e1]
        exact ihl hl f1 l1 r1 e1 q2 hm
    · simp only at e2 hm
      subst e2
      rcases isStrict_cases right hr with ⟨c1, f1, e1⟩ | ⟨f1, l1, r1, e1, -, -⟩
      · subst e1
        rw [leafPaths_leaf, List.mem_singleton] at hm
        injection hm with hm1 hm2
        injection hm1 with hm1
        subst hm1 hm2
        exact decompressLoop_step_leaf root _ _ _ _ '1' _ _ _ f1 (by simp)
      · rw [List.cons_append,
          decompressLoop_step_internal root _ _ _ _ '1' _ _ f1 l1 r1 (by simp [e1]), ← e1]
        exact ihr hr f1 l1 r1 e1 q2 hm

/-- Reading a proper beginning of the path of a leaf emits nothing, and the loop ends
there without error. -/
theorem decompressLoop_stub (root t : HuffmanNode) (h : t.isStrict = true)
    (c : Option Char) (q : List Char) (hq : (c, q) ∈ t.leafPaths)
    (stub : List Char) (hp : stub <+: q) (hne : stub ≠ q) (result : List Char) :
    decompressLoop root stub t result = Except.ok result := by
  induction t generalizing q stub with
  | null => simp [HuffmanNode.isStrict] at h
  | node char freq left right ihl ihr =>
    cases stub with
    | nil => rfl
    | cons b stub2 =>
      rcases isStrict_cases _ h with ⟨c1, f1, e1⟩ | ⟨f1, l1, r1, e1, hl, hr⟩
      · rw [e1, leafPaths_leaf, List.mem_singleton] at hq
        injection hq with hq1 hq2
        subst hq2
        simp at hp
      · injection e1 with h1 h2 h3 h4
        subst h1 h2 h3 h4
        rcases mem_leafPaths_internal _ _ _ hl _ hq with ⟨q2, e2, hm⟩ | ⟨q2, e2, hm⟩
        · simp only at e2 hm
          subst e2
          obtain ⟨hb, hp2⟩ := List.cons_prefix_cons.1 hp
          subst hb
          have hne2 : stub2 ≠ q2 := fun h0 => hne (by rw [h0])
          rcases isStrict_cases left hl with ⟨c1, f1, e1⟩ | ⟨f1, l1, r1, e1, -, -⟩
          · subst e1
            rw [leafPaths_leaf, List.mem_singleton] at hm
            injection hm with hm1 hm2
            subst hm2
            exact absurd (List.prefix_nil.1 hp2) hne2
          · rw [decompressLoop_step_internal root _ _ _ _ '0' _ _ f1 l1 r1 (by simp [e1]),
              ← e1]
            exact ihl hl q2 hm stub2 hp2 hne2
        · simp only at e2 hm
          subst e2
          obtain ⟨hb, hp2⟩ := List.cons_prefix_cons.1 hp
          subst hb
          have hne2 : stub2 ≠ q2 := fun h0 => hne (by rw [h0])
          rcases isStrict_cases right hr with ⟨c1, f1, e1⟩ | ⟨f1, l1, r1, e1, -, -⟩
          · subst e1
            rw [leafPaths_leaf, List.mem_singleton] at hm
            injection hm with hm1 hm2
            subst hm2
            exact absurd (List.prefix_nil.1 hp2) hne2
          · rw [decompressLoop_step_internal root _ _ _ _ '1' _ _ f1 l1 r1 (by simp [e1]),
              ← e1]
            exact ihr hr q2 hm stub2 hp2 hne2

/-- Reading the paths of a run of leaves, one after the other, from the root emits their
symbols in order and leaves the decoder at the root. -/
theorem decompressLoop_paths (root : HuffmanNode) (h : root.isStrict = true)
    (f : Nat) (l r : HuffmanNode) (hroot : root = HuffmanNode.node none f l r)
    (ws : List (Char × List Char)) (hws : ∀ e ∈ ws, (some e.1, e.2) ∈ root.leafPaths)
    (rest result : List Char) :
    decompressLoop root ((ws.map Prod.snd).flatten ++ rest) root result
      = decompressLoop root rest root (result ++ ws.map Prod.fst) := by
  induction ws generalizing result with
  | nil => simp
  | cons w ws2 ih =>
    simp only [List.map_cons, List.flatten_cons, List.append_assoc]
    rw [decompressLoop_path root root h f l r hroot w.1 w.2 (hws w (by simp)),
      ih (fun e he => hws e (by simp [he]))]
    simp


/-- **C12, at the failing input.** With a tree that is a bare leaf, `decompressString`
raises a `TypeError` on every non-empty bit string (the first pass moves to the missing
child and reads its `char`), and on the empty bit string it returns the empty string; in
neither case is the symbol of the leaf emitted.  So for the leaf `a` and the bit "0". -/
theorem decompressString_single_leaf :
    decompressString ['0'] (HuffmanNode.leaf 'a' 4) = Except.error JsError.typeError
    ∧ decompressString [] (HuffmanNode.leaf 'a' 4) = Except.ok []
    ∧ (∀ (c : Char) (f : Nat) (bit : Char) (rest : List Char),
        decompressString (bit :: rest) (HuffmanNode.leaf c f)
          = Except.error JsError.typeError)
    ∧ ∀ (c : Char) (f : Nat), decompressString [] (HuffmanNode.leaf c f) = Except.ok [] := by
  refine ⟨by decide, by decide, ?_, fun _ _ => rfl⟩
  intro c f bit rest
  simp [decompressString, decompressLoop, HuffmanNode.leaf]

/-- **C13, counterexample.** The tree of "abacabad" is strict and has four leaves; the bits
"01" are the code of `a` followed by the first bit of the code "10" of `b`, so they end in
the middle of a path; `decompressString` returns "a" and raises nothing. -/
theorem decompressString_truncated_returns :
    (HuffmanNode.node none 8 (HuffmanNode.leaf 'a' 4)
      (HuffmanNode.node none 4 (HuffmanNode.leaf 'b' 2)
        (HuffmanNode.node none 2 (HuffmanNode.leaf 'c' 1) (HuffmanNode.leaf 'd' 1)))).isStrict
      = true
    ∧ buildHuffmanTree (buildFrequencyMap "abacabad".toList)
      = Except.ok (some (HuffmanNode.node none 8 (HuffmanNode.leaf 'a' 4)
          (HuffmanNode.node none 4 (HuffmanNode.leaf 'b' 2)
            (HuffmanNode.node none 2 (HuffmanNode.leaf 'c' 1) (HuffmanNode.leaf 'd' 1)))))
    ∧ (some 'a', ['0']) ∈ (HuffmanNode.node none 8 (HuffmanNode.leaf 'a' 4)
        (HuffmanNode.node none 4 (HuffmanNode.leaf 'b' 2)
          (HuffmanNode.node none 2 (HuffmanNode.leaf 'c' 1)
            (HuffmanNode.leaf 'd' 1)))).leafPaths
    ∧ (some 'b', ['1', '0']) ∈ (HuffmanNode.node none 8 (HuffmanNode.leaf 'a' 4)
        (HuffmanNode.node none 4 (HuffmanNode.leaf 'b' 2)
          (HuffmanNode.node none 2 (HuffmanNode.leaf 'c' 1)
            (HuffmanNode.leaf 'd' 1)))).leafPaths
    ∧ decompressString ['0', '1'] (HuffmanNode.node none 8 (HuffmanNode.leaf 'a' 4)
        (HuffmanNode.node none 4 (HuffmanNode.leaf 'b' 2)
          (HuffmanNode.node none 2 (HuffmanNode.leaf 'c' 1) (HuffmanNode.leaf 'd' 1))))
      = Except.ok ['a']
    ∧ ∀ e, decompressString ['0', '1'] (HuffmanNode.node none 8 (HuffmanNode.leaf 'a' 4)
        (HuffmanNode.node none 4 (HuffmanNode.leaf 'b' 2)
          (HuffmanNode.node none 2 (HuffmanNode.leaf 'c' 1) (HuffmanNode.leaf 'd' 1))))
      ≠ Except.error e :=
  ⟨by decide, by decide, by decide, by decide, by decide, fun _ h => Except.noConfusion
    ((show decompressString ['0', '1'] (HuffmanNode.node none 8 (HuffmanNode.leaf 'a' 4)
        (HuffmanNode.node none 4 (HuffmanNode.leaf 'b' 2)
          (HuffmanNode.node none 2 (HuffmanNode.leaf 'c' 1) (HuffmanNode.leaf 'd' 1))))
      = Except.ok ['a'] by decide).symm.trans h)⟩

/-- **C13, as the code has it.** For a strict tree with two leaves or more and a bit
string made of the paths of some leaves followed by a proper beginning `stub` of the path
of a leaf (the bits run out in the middle of a path), `decompressString` raises no error:
it returns the symbols of the leaves whose paths were read in full, and the bits of the
unfinished path are dropped. -/
theorem decompressString_truncated (root : HuffmanNode) (h : root.isStrict = true)
    (h2 : 2 ≤ root.leaves.length)
    (ws : List (Char × List Char)) (hws : ∀ e ∈ ws, (some e.1, e.2) ∈ root.leafPaths)
    (c : Option Char) (q stub : List Char) (hq : (c, q) ∈ root.leafPaths)
    (hp : stub <+: q) (hne : stub ≠ q) :
    decompressString ((ws.map Prod.snd).flatten ++ stub) root
      = Except.ok (ws.map Prod.fst) := by
  obtain ⟨f, l, r, hroot⟩ := isStrict_root_internal root h h2
  unfold decompressString
  rw [decompressLoop_paths root h f l r hroot ws hws,
    decompressLoop_stub root root h c q hq stub hp hne]
  simp

/-- In the tree of "abacabad", the bits "0" and "10" of `a` and `b` followed by the first
two bits "11" of the code "110" of `c` decode to "ab". -/
theorem decompressString_truncated_witness :
    decompressString ['0', '1', '0', '1', '1'] (HuffmanNode.node none 8 (HuffmanNode.leaf 'a' 4)
        (HuffmanNode.node none 4 (HuffmanNode.leaf 'b' 2)
          (HuffmanNode.node none 2 (HuffmanNode.leaf 'c' 1) (HuffmanNode.leaf 'd' 1))))
      = Except.ok ['a', 'b'] :=
  decompressString_truncated (HuffmanNode.node none 8 (HuffmanNode.leaf 'a' 4)
        (HuffmanNode.node none 4 (HuffmanNode.leaf 'b' 2)
          (HuffmanNode.node none 2 (HuffmanNode.leaf 'c' 1) (HuffmanNode.leaf 'd' 1))))
    (by decide) (by decide) [('a', ['0']), ('b', ['1', '0'])] (by decide)
    (some 'c') ['1', '1', '0'] ['1', '1'] (by decide) (by decide) (by decide)

/-- **C17.** Round trip for alphabets of size at least two: for an input `s` in which two
different symbols occur, with the tree built from the frequency table of `s` and the codes
generated from that tree, `compressString` returns a bit string and `decompressString`
of that bit string with the tree returns `s`. -/
theorem roundTrip_two_symbols (s : List Char) (a b : Char) (ha : a ∈ s) (hb : b ∈ s)
    (hab : a ≠ b) :
    ∃ tree codes bits,
      buildHuffmanTree (buildFrequencyMap s) = Except.ok (some tree)
      ∧ generateHuffmanCodes (some tree) = Except.ok (some codes)
      ∧ compressString s (some codes) = Except.ok bits
      ∧ decompressString bits tree = Except.ok s :=
  decompress_compress_of_two_symbols s a b ha hb hab

/-- The symbols `a` and `b` occur in "abacabad", which is decoded from its own encoding. -/
theorem roundTrip_two_symbols_witness :
    'a' ∈ "abacabad".toList ∧ 'b' ∈ "abacabad".toList ∧ 'a' ≠ 'b'
    ∧ ∃ tree codes bits,
      buildHuffmanTree (buildFrequencyMap "abacabad".toList) = Except.ok (some tree)
      ∧ generateHuffmanCodes (some tree) = Except.ok (some codes)
      ∧ compressString "abacabad".toList (some codes) = Except.ok bits
      ∧ decompressString bits tree = Except.ok "abacabad".toList :=
  ⟨by decide, by decide, by decide,
    roundTrip_two_symbols "abacabad".toList 'a' 'b' (by decide) (by decide) (by decide)⟩


/-! ## Safety of the decoder -/

/-- On a strict tree whose root is not a leaf, the decoding loop started at a node that is
not a leaf ends without error. -/
theorem decompressLoop_safe (root : HuffmanNode) (h : root.isStrict = true)
    (hroot : ∃ f l r, root = HuffmanNode.node none f l r) (bits : List Char) :
    ∀ (t : HuffmanNode), t.isStrict = true → (∃ f l r, t = HuffmanNode.node none f l r) →
      ∀ result, ∃ out, decompressLoop root bits t result = Except.ok out := by
  induction bits with
  | nil => intro t _ _ result; exact ⟨result, rfl⟩
  | cons bit rest ih =>
    intro t ht hint result
    obtain ⟨f, l, r, rfl⟩ := hint
    obtain ⟨hl, hr⟩ := isStrict_internal f l r ht
    have hchild : (if bit = '0' then l else r).isStrict = true := by
      split
      · exact hl
      · exact hr
    rcases isStrict_cases _ hchild with ⟨c1, f1, e1⟩ | ⟨f1, l1, r1, e1, -, -⟩
    · rw [decompressLoop_step_leaf root _ _ _ _ bit _ _ c1 f1 e1]
      exact ih root h hroot _
    · rw [decompressLoop_step_internal root _ _ _ _ bit _ _ f1 l1 r1 e1]
      exact ih _ (e1 ▸ hchild) ⟨f1, l1, r1, rfl⟩ _

/-- On a strict tree whose root is not a leaf, the current node is, at the start of every
pass of the decoding loop, a strict node with two children. -/
theorem currentNodes_internal (root : HuffmanNode) (h : root.isStrict = true)
    (hroot : ∃ f l r, root = HuffmanNode.node none f l r) (bits : List Char) :
    ∀ (t : HuffmanNode), t.isStrict = true → (∃ f l r, t = HuffmanNode.node none f l r) →
      ∀ n ∈ currentNodes root bits t,
        ∃ f l r, n = HuffmanNode.node none f l r ∧ l.isStrict = true ∧ r.isStrict = true := by
  induction bits with
  | nil => intro t _ _ n hn; simp [currentNodes] at hn
  | cons bit rest ih =>
    intro t ht hint n hn
    obtain ⟨f, l, r, rfl⟩ := hint
    obtain ⟨hl, hr⟩ := isStrict_internal f l r ht
    have hchild : (if bit = '0' then l else r).isStrict = true := by
      split
      · exact hl
      · exact hr
    simp only [currentNodes, List.mem_cons] at hn
    rcases hn with hn | hn
    · exact ⟨f, l, r, hn, hl, hr⟩
    · rcases isStrict_cases _ hchild with ⟨c1, f1, e1⟩ | ⟨f1, l1, r1, e1, -, -⟩
      · rw [e1] at hn
        exact ih root h hroot n hn
      · rw [e1] at hn
        exact ih _ (e1 ▸ hchild) ⟨f1, l1, r1, rfl⟩ n hn

/-- The tree built from a table with two entries or more is strict and its root is not a
leaf. -/
theorem buildHuffmanTree_internal (t : JsObject Nat) (h2 : 2 ≤ t.length) :
    ∃ root, buildHuffmanTree t = Except.ok (some root) ∧ root.isStrict = true
      ∧ ∃ f l r, root = HuffmanNode.node none f l r := by
  have hne : t ≠ [] := by
    intro h0
    rw [h0] at h2
    simp at h2
  obtain ⟨root, hroot, hgood, hp⟩ := buildHuffmanTree_good t hne
  refine ⟨root, hroot, hgood.1, isStrict_root_internal root hgood.1 ?_⟩
  rw [hp.length_eq]
  simpa using h2

/-- **C19.** The decoder never follows a missing child: for a strict tree whose root is
not a leaf and every string of bits (any character other than `0` counts as a step to the
right), `decompressString` returns normally, and at the start of every pass of its loop the
current node is a node without symbol that has two children, themselves nodes, so that no
property is read from `null`; the tree built from a table with two entries or more is such
a tree. -/
theorem decompressString_safe (root : HuffmanNode) (h : root.isStrict = true)
    (hroot : ∃ f l r, root = HuffmanNode.node none f l r) (bits : List Char) :
    (∃ out, decompressString bits root = Except.ok out)
    ∧ (∀ n ∈ currentNodes root bits root,
        ∃ f l r, n = HuffmanNode.node none f l r
          ∧ l ≠ HuffmanNode.null ∧ r ≠ HuffmanNode.null)
    ∧ ∀ t : JsObject Nat, 2 ≤ t.length →
        ∃ tree, buildHuffmanTree t = Except.ok (some tree) ∧ tree.isStrict = true
          ∧ (∃ f l r, tree = HuffmanNode.node none f l r)
          ∧ ∃ out, decompressString bits tree = Except.ok out := by
  refine ⟨decompressLoop_safe root h hroot bits root h hroot [], ?_, ?_⟩
  · intro n hn
    obtain ⟨f, l, r, e, hl, hr⟩ := currentNodes_internal root h hroot bits root h hroot n hn
    exact ⟨f, l, r, e, isStrict_ne_null l hl, isStrict_ne_null r hr⟩
  · intro t h2
    obtain ⟨tree, h1, hs, hint⟩ := buildHuffmanTree_internal t h2
    exact ⟨tree, h1, hs, hint, decompressLoop_safe tree hs hint bits tree hs hint []⟩

/-- The tree of "abacabad" decodes the bits "0111x1" without error. -/
theorem decompressString_safe_witness :
    ∃ out, decompressString ['0', '1', '1', '1', 'x', '1']
      (HuffmanNode.node none 8 (HuffmanNode.leaf 'a' 4)
        (HuffmanNode.node none 4 (HuffmanNode.leaf 'b' 2)
          (HuffmanNode.node none 2 (HuffmanNode.leaf 'c' 1) (HuffmanNode.leaf 'd' 1))))
      = Except.ok out :=
  (decompressString_safe (HuffmanNode.node none 8 (HuffmanNode.leaf 'a' 4)
        (HuffmanNode.node none 4 (HuffmanNode.leaf 'b' 2)
          (HuffmanNode.node none 2 (HuffmanNode.leaf 'c' 1) (HuffmanNode.leaf 'd' 1))))
    (by decide) ⟨_, _, _, rfl⟩ ['0', '1', '1', '1', 'x', '1']).1

/-- **C16.** Pad bits can decode as spurious symbols: for the input "abacabad" the 14
encoded bits are padded with two zero bits, `0` is the code of `a`, and decoding the padded
stream returns "abacabadaa", which is the input followed by two extra symbols and differs
from the input. -/
theorem padded_decode_spurious :
    ∃ tree codes bits padded,
      buildHuffmanTree (buildFrequencyMap "abacabad".toList) = Except.ok (some tree)
      ∧ generateHuffmanCodes (some tree) = Except.ok (some codes)
      ∧ compressString "abacabad".toList (some codes) = Except.ok bits
      ∧ base64ToBinary (binaryToBase64 bits) = Except.ok padded
      ∧ padded = bits ++ ['0', '0']
      ∧ decompressString padded tree = Except.ok ("abacabad".toList ++ ['a', 'a'])
      ∧ decompressString padded tree ≠ Except.ok "abacabad".toList :=
  ⟨HuffmanNode.node none 8 (HuffmanNode.leaf 'a' 4)
      (HuffmanNode.node none 4 (HuffmanNode.leaf 'b' 2)
        (HuffmanNode.node none 2 (HuffmanNode.leaf 'c' 1) (HuffmanNode.leaf 'd' 1))),
    [('a', "0".toList), ('b', "10".toList), ('c', "110".toList), ('d', "111".toList)],
    "01001100100111".toList, "0100110010011100".toList, by decide, by decide, by decide,
    by decide, by decide, by decide, by decide⟩


/-! ## Decoding the padded stream -/

theorem mergeLoop_length (fuel : Nat) (nodes : List HuffmanNode)
    (h : fuel + 1 ≤ nodes.length) : (mergeLoop fuel nodes).length = nodes.length - fuel := by
  induction fuel generalizing nodes with
  | zero => rfl
  | succ fuel ih =>
    have hlen : nodes.length > 1 := by omega
    have hs := mergeStep_length nodes hlen
    rw [mergeLoop, if_pos hlen, ih _ (by omega)]
    omega

theorem mergePasses_eq (fuel : Nat) (nodes : List HuffmanNode) :
    mergePasses fuel nodes = min fuel (nodes.length - 1) := by
  induction fuel generalizing nodes with
  | zero => simp [mergePasses]
  | succ fuel ih =>
    by_cases hlen : nodes.length > 1
    · have hs := mergeStep_length nodes hlen
      rw [mergePasses, if_pos hlen, ih]
      omega
    · rw [mergePasses, if_neg hlen]
      omega

/-- Passes beyond the number of nodes less one change nothing: the loop has stopped. -/
theorem mergeLoop_enough (fuel : Nat) (nodes : List HuffmanNode)
    (h : nodes.length ≤ fuel + 1) :
    mergeLoop fuel nodes = mergeLoop (nodes.length - 1) nodes := by
  induction fuel generalizing nodes with
  | zero =>
    have : nodes.length - 1 = 0 := by omega
    rw [this]
  | succ fuel ih =>
    by_cases hlen : nodes.length > 1
    · have hs := mergeStep_length nodes hlen
      obtain ⟨k, hk⟩ : ∃ k, nodes.length - 1 = k + 1 := ⟨nodes.length - 2, by omega⟩
      rw [hk, mergeLoop, if_pos hlen, mergeLoop, if_pos hlen, ih _ (by omega)]
      congr 1
      omega
    · obtain hz | hz : nodes.length - 1 = 0 ∨ nodes.length - 1 ≠ 0 := by omega
      · rw [hz]
        simp only [mergeLoop, if_neg hlen]
      · omega

theorem internalCount_strict (t : HuffmanNode) (h : t.isStrict = true) :
    t.internalCount + 1 = t.leaves.length := by
  induction t with
  | null => simp [HuffmanNode.isStrict] at h
  | node char freq left right ihl ihr =>
    rcases isStrict_cases _ h with ⟨c1, f1, e1⟩ | ⟨f1, l1, r1, e1, hl, hr⟩
    · rw [e1]
      rfl
    · injection e1 with h1 h2 h3 h4
      subst h1 h2 h3 h4
      have e : (HuffmanNode.node none freq left right).internalCount
          = left.internalCount + right.internalCount + 1 := by
        cases left with
        | null => simp [HuffmanNode.isStrict] at hl
        | node c2 f2 l2 r2 => rfl
      rw [e, leaves_node _ _ _ _ (isStrict_ne_null _ hl), List.length_append, ← ihl hl, ← ihr hr]
      omega

/-- **C15.** Termination of tree building: for a table with `n ≥ 1` entries the forest
starts with `n` nodes and has `n - i` nodes after `i ≤ n - 1` passes of the merge loop (one
node less per pass); the loop makes exactly `n - 1` passes, with the passes allowed by the
model and with any larger allowance, after which passes change nothing; the one node left
is the root that `buildHuffmanTree` returns, a tree with `n` leaves and `n - 1` nodes that
have children. -/
theorem buildHuffmanTree_terminates (t : JsObject Nat) (h : 1 ≤ t.length) :
    (initialNodes t).length = t.length
    ∧ (∀ i, i ≤ t.length - 1 → (mergeLoop i (initialNodes t)).length = t.length - i)
    ∧ mergePasses (initialNodes t).length (initialNodes t) = t.length - 1
    ∧ (∀ fuel, t.length - 1 ≤ fuel →
        mergePasses fuel (initialNodes t) = t.length - 1
        ∧ mergeLoop fuel (initialNodes t) = mergeLoop (t.length - 1) (initialNodes t))
    ∧ ∃ root, mergeLoop (t.length - 1) (initialNodes t) = [root]
        ∧ buildHuffmanTree t = Except.ok (some root)
        ∧ root.leaves.length = t.length
        ∧ root.internalCount = t.length - 1 := by
  have hlen : (initialNodes t).length = t.length := by simp [initialNodes, objectEntries]
  have hne : t ≠ [] := by
    intro h0
    rw [h0] at h
    simp at h
  obtain ⟨root, hroot, hgood, hp⟩ := buildHuffmanTree_good t hne
  obtain ⟨root2, hroot2, hloop⟩ := buildHuffmanTree_eq t hne
  have hrr : root2 = root := by
    rw [hroot] at hroot2
    injection hroot2 with h1
    injection h1 with h1
    exact h1.symm
  subst hrr
  have hleaves : root2.leaves.length = t.length := by
    rw [hp.length_eq]
    simp
  refine ⟨hlen, ?_, ?_, ?_, root2, ?_, hroot, hleaves, ?_⟩
  · intro i hi
    rw [mergeLoop_length i _ (by omega), hlen]
  · rw [mergePasses_eq, hlen]
    omega
  · intro fuel hf
    refine ⟨by rw [mergePasses_eq, hlen]; omega, ?_⟩
    rw [mergeLoop_enough fuel _ (by omega), hlen]
  · rw [← hloop, mergeLoop_enough (initialNodes t).length _ (by omega), hlen]
  · have := internalCount_strict root2 hgood.1
    omega

/-- The table a:4, b:2, c:1, d:1 has four entries; its loop makes three passes and leaves a
tree with four leaves. -/
theorem buildHuffmanTree_terminates_witness :
    1 ≤ [('a', 4), ('b', 2), ('c', 1), ('d', 1)].length
    ∧ mergePasses (initialNodes [('a', 4), ('b', 2), ('c', 1), ('d', 1)]).length
        (initialNodes [('a', 4), ('b', 2), ('c', 1), ('d', 1)]) = 3
    ∧ ∃ root, mergeLoop 3 (initialNodes [('a', 4), ('b', 2), ('c', 1), ('d', 1)]) = [root]
        ∧ buildHuffmanTree [('a', 4), ('b', 2), ('c', 1), ('d', 1)] = Except.ok (some root)
        ∧ root.leaves.length = 4
        ∧ root.internalCount = 3 :=
  ⟨by decide,
    (buildHuffmanTree_terminates [('a', 4), ('b', 2), ('c', 1), ('d', 1)] (by decide)).2.2.1,
    (buildHuffmanTree_terminates [('a', 4), ('b', 2), ('c', 1), ('d', 1)] (by decide)).2.2.2.2⟩


/-! ## The greedy choice and its tie-break -/

theorem stampFrom_map_snd (k : Nat) (nodes : List HuffmanNode) :
    (stampFrom k nodes).map Prod.snd = nodes := by
  induction nodes generalizing k with
  | nil => rfl
  | cons n rest ih => simp [stampFrom, ih]

theorem stampFrom_bounds (k : Nat) (nodes : List HuffmanNode) :
    ∀ x ∈ stampFrom k nodes, k ≤ x.1 ∧ x.1 < k + nodes.length := by
  induction nodes generalizing k with
  | nil => simp [stampFrom]
  | cons n rest ih =>
    intro x hx
    simp only [stampFrom, List.mem_cons] at hx
    rcases hx with rfl | hx
    · simp
    · have := ih (k + 1) x hx
      simp only [List.length_cons]
      omega

theorem stampFrom_pairwise (k : Nat) (nodes : List HuffmanNode) :
    (stampFrom k nodes).Pairwise (fun x y => x.1 < y.1) := by
  induction nodes generalizing k with
  | nil => simp [stampFrom]
  | cons n rest ih =>
    simp only [stampFrom, List.pairwise_cons]
    refine ⟨fun y hy => ?_, ih (k + 1)⟩
    have := (stampFrom_bounds (k + 1) rest y hy).1
    show k < y.1
    omega

theorem sortStamped_map_snd (nodes : List (Nat × HuffmanNode)) :
    (sortStamped nodes).map Prod.snd = sortNodes (nodes.map Prod.snd) :=
  List.map_insertionSort (fun (a b : Nat × HuffmanNode) => a.2.freq ≤ b.2.freq)
    (fun (a b : HuffmanNode) => a.freq ≤ b.freq) Prod.snd nodes (fun _ _ _ _ => Iff.rfl)

theorem sortStamped_perm (nodes : List (Nat × HuffmanNode)) :
    (sortStamped nodes).Perm nodes :=
  List.perm_insertionSort _ nodes

theorem stampedStep_spec (stamp : Nat) (nodes : List (Nat × HuffmanNode))
    (h : nodes.length > 1) :
    ∃ left right rest, sortStamped nodes = left :: right :: rest
      ∧ stampedStep stamp nodes
        = rest ++ [(stamp, HuffmanNode.node none (left.2.freq + right.2.freq) left.2 right.2)] := by
  have hlen : (sortStamped nodes).length = nodes.length := (sortStamped_perm nodes).length_eq
  unfold stampedStep
  match hs : sortStamped nodes with
  | [] => rw [hs] at hlen; simp at hlen; omega
  | [a] => rw [hs] at hlen; simp at hlen; omega
  | left :: right :: rest => exact ⟨left, right, rest, rfl, rfl⟩

/-- Forgetting the ranks, a pass on the ranked forest is a pass of the loop of the
source. -/
theorem stampedStep_map_snd (stamp : Nat) (nodes : List (Nat × HuffmanNode))
    (h : nodes.length > 1) :
    (stampedStep stamp nodes).map Prod.snd = mergeStep (nodes.map Prod.snd) := by
  obtain ⟨left, right, rest, hs, hm⟩ := stampedStep_spec stamp nodes h
  have h2 := sortStamped_map_snd nodes
  rw [hs] at h2
  simp only [List.map_cons] at h2
  rw [hm, mergeStep, ← h2]
  simp

theorem mergeLoop_succ (i : Nat) (nodes : List HuffmanNode) :
    mergeLoop (i + 1) nodes
      = if (mergeLoop i nodes).length > 1 then mergeStep (mergeLoop i nodes)
        else mergeLoop i nodes := by
  induction i generalizing nodes with
  | zero =>
    simp only [mergeLoop]
  | succ i ih =>
    by_cases hlen : nodes.length > 1
    · rw [mergeLoop, if_pos hlen, ih (mergeStep nodes)]
      conv_rhs => rw [mergeLoop, if_pos hlen]
    · have e : ∀ k, mergeLoop (k + 1) nodes = nodes := fun k => by
        rw [mergeLoop, if_neg hlen]
      rw [e, e, if_neg hlen]

/-- Forgetting the ranks, the ranked forest after `i` passes is the forest of the loop of
the source after `i` passes. -/
theorem stampedForest_map_snd (t : JsObject Nat) (i : Nat) :
    (stampedForest t i).map Prod.snd = mergeLoop i (initialNodes t) := by
  induction i with
  | zero => simp [stampedForest, stampFrom_map_snd, mergeLoop]
  | succ i ih =>
    have hl : (stampedForest t i).length = (mergeLoop i (initialNodes t)).length := by
      rw [← ih, List.length_map]
    rw [mergeLoop_succ, stampedForest, ← hl]
    split
    · next hlen => rw [stampedStep_map_snd _ _ hlen, ih]
    · exact ih

/-- Inserting, as the sort does, a node that was before all nodes of equal frequency of
a run that is in the order of taking keeps the run in that order. -/
theorem orderedInsert_takenBefore (a : Nat × HuffmanNode) (l : List (Nat × HuffmanNode))
    (hl : l.Pairwise takenBefore) (ha : ∀ y ∈ l, a.2.freq = y.2.freq → a.1 < y.1) :
    (List.orderedInsert (fun a b => a.2.freq ≤ b.2.freq) a l).Pairwise takenBefore := by
  induction l with
  | nil => simp
  | cons b rest ih =>
    rw [List.pairwise_cons] at hl
    by_cases hab : a.2.freq ≤ b.2.freq
    · rw [List.orderedInsert, if_pos hab, List.pairwise_cons]
      refine ⟨?_, List.pairwise_cons.2 hl⟩
      intro y hy
      have hby : b.2.freq ≤ y.2.freq := by
        rcases List.mem_cons.1 hy with rfl | hy2
        · exact le_refl _
        · rcases hl.1 y hy2 with h1 | h1
          · exact le_of_lt h1
          · exact le_of_eq h1.1
      rcases Nat.lt_or_ge a.2.freq y.2.freq with h1 | h1
      · exact Or.inl h1
      · have heq : a.2.freq = y.2.freq := by omega
        exact Or.inr ⟨heq, ha y hy heq⟩
    · rw [List.orderedInsert, if_neg hab, List.pairwise_cons]
      refine ⟨?_, ih hl.2 (fun y hy => ha y (List.mem_cons_of_mem _ hy))⟩
      intro y hy
      rcases (List.mem_orderedInsert _).1 hy with rfl | hy2
      · exact Or.inl (by omega)
      · exact hl.1 y hy2

/-- The stable sort puts a forest in which nodes of equal frequency stand in the order of
their creation into the order of taking. -/
theorem sortStamped_takenBefore (nodes : List (Nat × HuffmanNode))
    (h : nodes.Pairwise (fun x y => x.2.freq = y.2.freq → x.1 < y.1)) :
    (sortStamped nodes).Pairwise takenBefore := by
  induction nodes with
  | nil => simp [sortStamped]
  | cons a rest ih =>
    rw [List.pairwise_cons] at h
    have h1 := ih h.2
    unfold sortStamped at h1 ⊢
    rw [List.insertionSort]
    apply orderedInsert_takenBefore a _ h1
    intro y hy
    exact h.1 y ((List.mem_insertionSort _).1 hy)

/-- The invariant of the ranked forest after `i` passes: nodes of equal frequency stand in
the order of their creation, and every rank is below `n + i`. -/
theorem stampedForest_inv (t : JsObject Nat) (i : Nat) :
    (stampedForest t i).Pairwise (fun x y => x.2.freq = y.2.freq → x.1 < y.1)
    ∧ ∀ x ∈ stampedForest t i, x.1 < t.length + i := by
  induction i with
  | zero =>
    refine ⟨?_, ?_⟩
    · show (stampFrom 0 (initialNodes t)).Pairwise _
      refine List.Pairwise.imp ?_ (stampFrom_pairwise 0 (initialNodes t))
      intro x y hxy _
      exact hxy
    intro x hx
    have := (stampFrom_bounds 0 _ x hx).2
    simpa [initialNodes, objectEntries] using this
  | succ i ih =>
    rw [stampedForest]
    split
    · next hlen =>
      obtain ⟨left, right, rest, hs, hm⟩ := stampedStep_spec (t.length + i) _ hlen
      have hsorted := sortStamped_takenBefore _ ih.1
      have hperm := sortStamped_perm (stampedForest t i)
      rw [hs] at hsorted hperm
      have hrest : rest.Pairwise takenBefore :=
        (List.pairwise_cons.1 (List.pairwise_cons.1 hsorted).2).2
      have hb : ∀ x ∈ rest, x.1 < t.length + i := fun x hx =>
        ih.2 x (hperm.subset (by simp [hx]))
      rw [hm]
      refine ⟨?_, ?_⟩
      · rw [List.pairwise_append]
        refine ⟨hrest.imp ?_, by simp, ?_⟩
        · intro x y hxy heq
          rcases hxy with h1 | h1
          · omega
          · exact h1.2
        · intro x hx y hy _
          simp only [List.mem_singleton] at hy
          rw [hy]
          exact hb x hx
      · intro x hx
        rcases List.mem_append.1 hx with hx | hx
        · have := hb x hx
          omega
        · simp only [List.mem_singleton] at hx
          rw [hx]
          simp only
          omega
    · exact ⟨ih.1, fun x hx => by have := ih.2 x hx; omega⟩

theorem sortNodes_sorted (nodes : List HuffmanNode) :
    (sortNodes nodes).Pairwise (fun a b => a.freq ≤ b.freq) := by
  haveI : IsTotal HuffmanNode (fun a b => a.freq ≤ b.freq) := ⟨fun a b => Nat.le_total _ _⟩
  haveI : IsTrans HuffmanNode (fun a b => a.freq ≤ b.freq) := ⟨fun _ _ _ h1 h2 => Nat.le_trans h1 h2⟩
  exact List.sorted_insertionSort (fun a b => a.freq ≤ b.freq) nodes

/-- Every tree of the forest keeps, through the loop, its children ordered by `freq`. -/
theorem mergeLoop_childrenOrdered (fuel : Nat) (nodes : List HuffmanNode)
    (h : ∀ n ∈ nodes, n.childrenOrdered = true) :
    ∀ n ∈ mergeLoop fuel nodes, n.childrenOrdered = true := by
  apply mergeLoop_preserves (fun l => ∀ n ∈ l, n.childrenOrdered = true) _ fuel nodes h
  intro l hlen hl n hn
  obtain ⟨left, right, rest, hs, hm⟩ := mergeStep_spec l hlen
  have hsorted := sortNodes_sorted l
  have hperm := sortNodes_perm l
  rw [hs] at hsorted hperm
  rw [hm] at hn
  rcases List.mem_append.1 hn with hn | hn
  · exact hl n (hperm.subset (by simp [hn]))
  · simp only [List.mem_singleton] at hn
    have hle : left.freq ≤ right.freq := (List.pairwise_cons.1 hsorted).1 right (by simp)
    have h1 := hl left (hperm.subset (by simp))
    have h2 := hl right (hperm.subset (by simp))
    rw [hn]
    simp only [HuffmanNode.childrenOrdered, h1, h2, Bool.and_true]
    cases left <;> cases right <;> simp [hle]


theorem buildHuffmanTree_childrenOrdered (t : JsObject Nat) (root : HuffmanNode)
    (h : buildHuffmanTree t = Except.ok (some root)) : root.childrenOrdered = true := by
  have hmem : root ∈ mergeLoop (initialNodes t).length (initialNodes t) := by
    have h1 : (mergeLoop (initialNodes t).length (initialNodes t)).head? = some root := by
      have h2 : buildHuffmanTree t
          = Except.ok (mergeLoop (initialNodes t).length (initialNodes t)).head? := rfl
      rw [h2] at h
      injection h
    exact List.mem_of_mem_head? h1
  apply mergeLoop_childrenOrdered _ _ _ root hmem
  intro n hn
  simp only [initialNodes, objectEntries, List.mem_map] at hn
  obtain ⟨e, _, rfl⟩ := hn
  rfl

/-- **C14.** Greedy merge with stable tie-break.  The forest is followed with every node
carrying the rank of its creation (the leaves get 0, 1, ... in the order of the table, the
node made by pass `i` gets `n + i`, larger than every rank in the forest); forgetting the
ranks gives the forest of the loop of the source.  In a pass on a forest of more than one
node, the two nodes removed, `left` then `right`, come before every other node of the
forest in the order "smaller frequency first, equal frequencies by rank of creation", and
`left` before `right`; the forest after the pass is the other nodes followed by a new node
with `char = null`, `freq` the sum of the two, left child `left` and right child `right`.
In the tree that is built, `left.freq ≤ right.freq` at every node that has children. -/
theorem buildHuffmanTree_greedy_stable (t : JsObject Nat) (i : Nat)
    (hi : (stampedForest t i).length > 1) :
    stampedForest t 0 = stampFrom 0 (initialNodes t)
    ∧ (stampedForest t i).map Prod.snd = mergeLoop i (initialNodes t)
    ∧ (stampedForest t (i + 1)).map Prod.snd = mergeLoop (i + 1) (initialNodes t)
    ∧ (∀ x ∈ stampedForest t i, x.1 < t.length + i)
    ∧ (∃ left right rest,
        (left :: right :: rest).Perm (stampedForest t i)
        ∧ takenBefore left right
        ∧ left.2.freq ≤ right.2.freq
        ∧ (∀ x ∈ rest, takenBefore left x ∧ takenBefore right x)
        ∧ stampedForest t (i + 1)
          = rest ++ [(t.length + i,
              HuffmanNode.node none (left.2.freq + right.2.freq) left.2 right.2)])
    ∧ ∀ root, buildHuffmanTree t = Except.ok (some root) → root.childrenOrdered = true := by
  refine ⟨rfl, stampedForest_map_snd t i, stampedForest_map_snd t (i + 1),
    (stampedForest_inv t i).2, ?_, buildHuffmanTree_childrenOrdered t⟩
  obtain ⟨left, right, rest, hs, hm⟩ := stampedStep_spec (t.length + i) _ hi
  have hsorted := sortStamped_takenBefore _ (stampedForest_inv t i).1
  have hperm := sortStamped_perm (stampedForest t i)
  rw [hs] at hsorted hperm
  rw [List.pairwise_cons, List.pairwise_cons] at hsorted
  have hlr : takenBefore left right := hsorted.1 right (by simp)
  refine ⟨left, right, rest, hperm, hlr, ?_, ?_, ?_⟩
  · rcases hlr with h1 | h1
    · exact le_of_lt h1
    · exact le_of_eq h1.1
  · intro x hx
    exact ⟨hsorted.1 x (by simp [hx]), hsorted.2.1 x hx⟩
  · rw [stampedForest, if_pos hi, hm]

/-- The forest of the table a:1, b:1, c:1 has three nodes of equal frequency; the first
pass takes the two created first and makes a node of rank 3. -/
theorem buildHuffmanTree_greedy_stable_witness :
    (stampedForest [('a', 1), ('b', 1), ('c', 1)] 0).length > 1
    ∧ stampedForest [('a', 1), ('b', 1), ('c', 1)] 1
      = [(2, HuffmanNode.leaf 'c' 1),
          (3, HuffmanNode.node none 2 (HuffmanNode.leaf 'a' 1) (HuffmanNode.leaf 'b' 1))]
    ∧ ∃ left right rest,
        (left :: right :: rest).Perm (stampedForest [('a', 1), ('b', 1), ('c', 1)] 0)
        ∧ takenBefore left right
        ∧ left.2.freq ≤ right.2.freq
        ∧ (∀ x ∈ rest, takenBefore left x ∧ takenBefore right x)
        ∧ stampedForest [('a', 1), ('b', 1), ('c', 1)] (0 + 1)
          = rest ++ [([('a', 1), ('b', 1), ('c', 1)].length + 0,
              HuffmanNode.node none (left.2.freq + right.2.freq) left.2 right.2)] :=
  ⟨by decide, by decide,
    (buildHuffmanTree_greedy_stable [('a', 1), ('b', 1), ('c', 1)] 0 (by decide)).2.2.2.2.1⟩


/-! ## Optimality: weights and depths -/

theorem depthCost_perm {a b : List (Nat × Nat)} (h : a.Perm b) : depthCost a = depthCost b :=
  (h.map _).sum_eq

theorem kraftSum_perm (N : Nat) {a b : List Nat} (h : a.Perm b) : kraftSum N a = kraftSum N b :=
  (h.map _).sum_eq

theorem depthCost_cons (e : Nat × Nat) (a : List (Nat × Nat)) :
    depthCost (e :: a) = e.1 * e.2 + depthCost a := by
  simp [depthCost]

theorem kraftSum_cons (N d : Nat) (ds : List Nat) :
    kraftSum N (d :: ds) = 2 ^ (N - d) + kraftSum N ds := by
  simp [kraftSum]

/-- Taking an entry out of a list. -/
theorem exists_perm_cons_of_mem {α : Type} (a : List α) (e : α) (he : e ∈ a) :
    ∃ a2, a.Perm (e :: a2) := by
  obtain ⟨l1, l2, rfl⟩ := List.append_of_mem he
  exact ⟨l1 ++ l2, List.perm_middle⟩

/-- Taking out of a list of pairs an entry with a given weight. -/
theorem exists_perm_cons_of_weights (a : List (Nat × Nat)) (x : Nat) (L : List Nat)
    (h : (a.map Prod.fst).Perm (x :: L)) :
    ∃ d a2, a.Perm ((x, d) :: a2) ∧ (a2.map Prod.fst).Perm L := by
  have hx : x ∈ a.map Prod.fst := h.symm.subset (by simp)
  obtain ⟨e, he, hex⟩ := List.mem_map.1 hx
  obtain ⟨a2, hp⟩ := exists_perm_cons_of_mem a e he
  refine ⟨e.2, a2, ?_, ?_⟩
  · have : (x, e.2) = e := by rw [← hex]
    rw [this]
    exact hp
  · have h2 := (hp.map Prod.fst).symm.trans h
    rw [List.map_cons, hex] at h2
    exact h2.cons_inv

theorem exists_max_depth (a : List (Nat × Nat)) (h : a ≠ []) :
    ∃ M, (∃ e ∈ a, e.2 = M) ∧ ∀ e ∈ a, e.2 ≤ M := by
  induction a with
  | nil => exact absurd rfl h
  | cons e rest ih =>
    by_cases hr : rest = []
    · subst hr
      exact ⟨e.2, ⟨e, by simp, rfl⟩, by simp⟩
    · obtain ⟨M, ⟨e2, he2, hM⟩, hle⟩ := ih hr
      by_cases hc : e.2 ≤ M
      · refine ⟨M, ⟨e2, by simp [he2], hM⟩, ?_⟩
        intro x hx
        rcases List.mem_cons.1 hx with rfl | hx
        · exact hc
        · exact hle x hx
      · refine ⟨e.2, ⟨e, by simp, rfl⟩, ?_⟩
        intro x hx
        rcases List.mem_cons.1 hx with rfl | hx
        · exact le_refl _
        · have := hle x hx
          omega

/-- With depths that are all 0, the Kraft sum counts the entries. -/
theorem kraftSum_zero_depths (N : Nat) (ds : List Nat) (h : ∀ d ∈ ds, d = 0) :
    kraftSum N ds = ds.length * 2 ^ N := by
  induction ds with
  | nil => simp [kraftSum]
  | cons d rest ih =>
    have hd : d = 0 := h d (by simp)
    rw [kraftSum_cons, ih (fun x hx => h x (by simp [hx])), hd, List.length_cons]
    simp only [Nat.sub_zero]
    ring

/-- A Kraft sum of depths that are all below `M` is a multiple of `2 ^ (N - M + 1)`. -/
theorem dvd_kraftSum (N M : Nat) (ds : List Nat) (hM : M ≤ N) (h : ∀ d ∈ ds, d + 1 ≤ M) :
    2 ^ (N - M + 1) ∣ kraftSum N ds := by
  induction ds with
  | nil => simp [kraftSum]
  | cons d rest ih =>
    rw [kraftSum_cons]
    apply Nat.dvd_add
    · apply Nat.pow_dvd_pow
      have := h d (by simp)
      omega
    · exact ih (fun x hx => h x (by simp [hx]))

/-- In a list of depths with Kraft sum `2 ^ N` the largest depth, if it is not 0, is the
depth of two entries at least. -/
theorem exists_second_max_depth (N M : Nat) (ds : List Nat) (hM1 : 1 ≤ M) (hMN : M ≤ N)
    (hle : ∀ d ∈ ds, d ≤ M) (hk : kraftSum N (M :: ds) = 2 ^ N) : M ∈ ds := by
  by_contra hnot
  have hlt : ∀ d ∈ ds, d + 1 ≤ M := by
    intro d hd
    have := hle d hd
    have hne : d ≠ M := fun h0 => hnot (h0 ▸ hd)
    omega
  have h1 := dvd_kraftSum N M ds hMN hlt
  have h2 : 2 ^ (N - M + 1) ∣ 2 ^ N := Nat.pow_dvd_pow 2 (by omega)
  rw [kraftSum_cons] at hk
  rw [← hk] at h2
  have h3 : 2 ^ (N - M + 1) ∣ 2 ^ (N - M) := (Nat.dvd_add_left h1).1 h2
  have h4 := Nat.le_of_dvd (Nat.two_pow_pos _) h3
  rw [Nat.pow_succ] at h4
  have h5 : 0 < 2 ^ (N - M) := Nat.two_pow_pos _
  omega

/-- Giving the largest depth to an entry of smallest weight does not raise the cost. -/
theorem exists_swap_depth (w0 d0 D : Nat) (b : List (Nat × Nat))
    (hw : ∀ e ∈ b, w0 ≤ e.1) (hd0 : d0 ≤ D)
    (hD : d0 = D ∨ ∃ e ∈ b, e.2 = D) :
    ∃ b2, (b2.map Prod.fst).Perm (b.map Prod.fst)
      ∧ (D :: b2.map Prod.snd).Perm (d0 :: b.map Prod.snd)
      ∧ depthCost ((w0, D) :: b2) ≤ depthCost ((w0, d0) :: b) := by
  rcases hD with rfl | ⟨e, he, heD⟩
  · exact ⟨b, List.Perm.refl _, List.Perm.refl _, le_refl _⟩
  · obtain ⟨b1, hp⟩ := exists_perm_cons_of_mem b e he
    refine ⟨(e.1, d0) :: b1, ?_, ?_, ?_⟩
    · exact (hp.map Prod.fst).symm
    · have h1 := (hp.map Prod.snd).symm
      simp only [List.map_cons] at h1 ⊢
      rw [heD] at h1
      exact (List.Perm.swap d0 D _).trans (h1.cons d0)
    · have hc : depthCost b = e.1 * e.2 + depthCost b1 := by
        rw [depthCost_perm hp, depthCost_cons]
      rw [depthCost_cons, depthCost_cons, depthCost_cons, hc, heD]
      simp only
      have hwe := hw e he
      obtain ⟨k, rfl⟩ := Nat.exists_eq_add_of_le hd0
      obtain ⟨j, hj⟩ := Nat.exists_eq_add_of_le hwe
      rw [hj]
      have : w0 * (d0 + k) + (w0 + j) * d0 + 0 ≤ w0 * d0 + (w0 + j) * (d0 + k) := by
        ring_nf
        nlinarith [Nat.zero_le (j * k)]
      omega


/-- The exchange step: among the assignments of depths with Kraft sum `2 ^ N` to the
weights `x :: y :: rest`, where `x` and `y` are the two smallest, one can put `x` and `y` at
the largest depth without raising the cost, and then replace them by one entry of weight
`x + y` one level up; the cost goes down by `x + y`. -/
theorem exists_collapse (N x y : Nat) (rest : List Nat) (a : List (Nat × Nat))
    (hxy : x ≤ y) (hy : ∀ w ∈ rest, y ≤ w)
    (hw : (a.map Prod.fst).Perm (x :: y :: rest))
    (hN : ∀ e ∈ a, e.2 ≤ N) (hk : kraftSum N (a.map Prod.snd) = 2 ^ N) :
    ∃ a2, (a2.map Prod.fst).Perm ((x + y) :: rest) ∧ (∀ e ∈ a2, e.2 ≤ N)
      ∧ kraftSum N (a2.map Prod.snd) = 2 ^ N ∧ x + y + depthCost a2 ≤ depthCost a := by
  obtain ⟨d1, a1, hp1, hw1⟩ := exists_perm_cons_of_weights a x (y :: rest) hw
  have hlen : 2 ≤ a.length := by
    have := hw.length_eq
    simp only [List.length_map, List.length_cons] at this
    omega
  have hne : a ≠ [] := by
    intro h0
    rw [h0] at hlen
    simp at hlen
  obtain ⟨M, ⟨eM, heM, hM⟩, hle⟩ := exists_max_depth a hne
  have hMN : M ≤ N := hM ▸ hN eM heM
  have hM1 : 1 ≤ M := by
    by_contra h0
    have hz : ∀ d ∈ a.map Prod.snd, d = 0 := by
      intro d hd
      obtain ⟨e, he, rfl⟩ := List.mem_map.1 hd
      have := hle e he
      omega
    rw [kraftSum_zero_depths N _ hz, List.length_map] at hk
    have h5 : 0 < 2 ^ N := Nat.two_pow_pos _
    have : 2 * 2 ^ N ≤ a.length * 2 ^ N := Nat.mul_le_mul_right _ hlen
    omega
  -- the weights of `a1` are at least `y`
  have hwa1 : ∀ e ∈ a1, y ≤ e.1 := by
    intro e he
    have : e.1 ∈ y :: rest := hw1.subset (List.mem_map_of_mem Prod.fst he)
    rcases List.mem_cons.1 this with h1 | h1
    · exact le_of_eq h1.symm
    · exact hy _ h1
  have hd1 : d1 ≤ M := hle (x, d1) (hp1.symm.subset (by simp))
  have hD1 : d1 = M ∨ ∃ e ∈ a1, e.2 = M := by
    rcases List.mem_cons.1 (hp1.subset heM) with h1 | h1
    · left
      rw [← hM, h1]
    · exact Or.inr ⟨eM, h1, hM⟩
  obtain ⟨b2, hbw, hbd, hbc⟩ := exists_swap_depth x d1 M a1
    (fun e he => le_trans hxy (hwa1 e he)) hd1 hD1
  obtain ⟨d2, a3, hp3, hw3⟩ := exists_perm_cons_of_weights b2 y rest (hbw.trans hw1)
  have hdep : (M :: b2.map Prod.snd).Perm (a.map Prod.snd) := by
    have := (hp1.map Prod.snd).symm
    simp only [List.map_cons] at this
    exact hbd.trans this
  have hb2le : ∀ d ∈ b2.map Prod.snd, d ≤ M := by
    intro d hd
    have : d ∈ a.map Prod.snd := hdep.subset (List.mem_cons_of_mem _ hd)
    obtain ⟨e, he, rfl⟩ := List.mem_map.1 this
    exact hle e he
  have hk2 : kraftSum N (M :: b2.map Prod.snd) = 2 ^ N := by
    rw [kraftSum_perm N hdep, hk]
  have hsec := exists_second_max_depth N M (b2.map Prod.snd) hM1 hMN hb2le hk2
  have hb2d : (b2.map Prod.snd).Perm (d2 :: a3.map Prod.snd) := by
    simpa using hp3.map Prod.snd
  have hd2 : d2 ≤ M := hb2le d2 (hb2d.symm.subset (by simp))
  have hD2 : d2 = M ∨ ∃ e ∈ a3, e.2 = M := by
    rcases List.mem_cons.1 (hb2d.subset hsec) with h1 | h1
    · exact Or.inl h1.symm
    · obtain ⟨e, he, hee⟩ := List.mem_map.1 h1
      exact Or.inr ⟨e, he, hee⟩
  have hwa3 : ∀ e ∈ a3, y ≤ e.1 := by
    intro e he
    exact hy _ (hw3.subset (List.mem_map_of_mem Prod.fst he))
  obtain ⟨a4, h4w, h4d, h4c⟩ := exists_swap_depth y d2 M a3 hwa3 hd2 hD2
  have h4dep : (M :: a4.map Prod.snd).Perm (b2.map Prod.snd) := h4d.trans hb2d.symm
  refine ⟨(x + y, M - 1) :: a4, ?_, ?_, ?_, ?_⟩
  · simp only [List.map_cons]
    exact (h4w.trans hw3).cons _
  · intro e he
    rcases List.mem_cons.1 he with rfl | h1
    · simp only
      omega
    · have : e.2 ∈ b2.map Prod.snd :=
        h4dep.subset (List.mem_cons_of_mem _ (List.mem_map_of_mem Prod.snd h1))
      exact le_trans (hb2le _ this) hMN
  · have e1 : kraftSum N (b2.map Prod.snd) = 2 ^ (N - M) + kraftSum N (a4.map Prod.snd) := by
      rw [← kraftSum_perm N h4dep, kraftSum_cons]
    rw [kraftSum_cons, e1] at hk2
    simp only [List.map_cons]
    rw [kraftSum_cons]
    have e2 : N - (M - 1) = (N - M) + 1 := by omega
    rw [e2, Nat.pow_succ]
    omega
  · have c1 : depthCost a = x * d1 + depthCost a1 := by
      rw [depthCost_perm hp1, depthCost_cons]
    have c2 : depthCost b2 = y * d2 + depthCost a3 := by
      rw [depthCost_perm hp3, depthCost_cons]
    rw [depthCost_cons] at hbc h4c
    rw [depthCost_cons] at hbc h4c
    simp only at hbc h4c
    rw [depthCost_cons]
    simp only
    obtain ⟨m, rfl⟩ := Nat.exists_eq_add_of_le hM1
    have e3 : 1 + m - 1 = m := by omega
    rw [e3]
    have e4 : (x + y) * m + x + y = x * (1 + m) + y * (1 + m) := by ring
    omega

/-- The cost of an assignment of depths with Kraft sum `2 ^ N` to the weights `ws` is at
least the total of the frequencies of the nodes that the merge loop makes on `ws`. -/
theorem greedyCost_le_depthCost (fuel : Nat) :
    ∀ (ws : List Nat) (a : List (Nat × Nat)) (N : Nat), (a.map Prod.fst).Perm ws →
      (∀ e ∈ a, e.2 ≤ N) → kraftSum N (a.map Prod.snd) = 2 ^ N →
      greedyCost fuel ws ≤ depthCost a := by
  induction fuel with
  | zero => intro ws a N _ _ _; simp [greedyCost]
  | succ fuel ih =>
    intro ws a N hw hN hk
    rw [greedyCost]
    have hsorted : (List.insertionSort (fun a b : Nat => a ≤ b) ws).Pairwise (fun a b => a ≤ b) :=
      List.sorted_insertionSort (fun a b : Nat => a ≤ b) ws
    have hperm : (List.insertionSort (fun a b : Nat => a ≤ b) ws).Perm ws :=
      List.perm_insertionSort _ ws
    match hs : List.insertionSort (fun a b : Nat => a ≤ b) ws with
    | [] => simp
    | [x] => simp
    | x :: y :: rest =>
      rw [hs] at hsorted hperm
      rw [List.pairwise_cons, List.pairwise_cons] at hsorted
      obtain ⟨a2, h2w, h2N, h2k, h2c⟩ := exists_collapse N x y rest a
        (hsorted.1 y (by simp)) hsorted.2.1 (hw.trans hperm.symm) hN hk
      have h3 := ih (rest ++ [x + y]) a2 N
        (h2w.trans (List.perm_append_singleton (x + y) rest).symm) h2N h2k
      simp only
      omega


/-! ## Optimality: the cost of the tree that is built -/

theorem leafDepths_leaf (c : Option Char) (f : Nat) :
    (HuffmanNode.node c f HuffmanNode.null HuffmanNode.null).leafDepths = [(f, 0)] := rfl

theorem leafDepths_node (c : Option Char) (f : Nat) (l r : HuffmanNode)
    (h : l ≠ HuffmanNode.null) :
    (HuffmanNode.node c f l r).leafDepths
      = l.leafDepths.map (fun e => (e.1, e.2 + 1))
        ++ r.leafDepths.map (fun e => (e.1, e.2 + 1)) := by
  cases l with
  | null => exact absurd rfl h
  | node c1 f1 l1 r1 => rfl

theorem leafDepths_weights (t : HuffmanNode) (h : t.isStrict = true) :
    t.leafDepths.map Prod.fst = t.leaves.map Prod.snd := by
  induction t with
  | null => rfl
  | node char freq left right ihl ihr =>
    rcases isStrict_cases _ h with ⟨c1, f1, e1⟩ | ⟨f1, l1, r1, e1, hl, hr⟩
    · rw [e1]
      rfl
    · injection e1 with h1 h2 h3 h4
      subst h1 h2 h3 h4
      rw [leafDepths_node _ _ _ _ (isStrict_ne_null _ hl), leaves_node _ _ _ _ (isStrict_ne_null _ hl)]
      simp only [List.map_append, List.map_map, ← ihl hl, ← ihr hr]
      rfl

theorem depthCost_append (a b : List (Nat × Nat)) :
    depthCost (a ++ b) = depthCost a + depthCost b := by
  simp [depthCost]

theorem depthCost_shift (a : List (Nat × Nat)) :
    depthCost (a.map (fun e => (e.1, e.2 + 1))) = depthCost a + (a.map Prod.fst).sum := by
  induction a with
  | nil => rfl
  | cons e rest ih =>
    rw [List.map_cons, depthCost_cons, depthCost_cons, ih, List.map_cons, List.sum_cons]
    simp only
    rw [Nat.mul_succ]
    omega

/-- The cost of a node made by the loop: the costs of its two children and their
frequencies. -/
theorem depthCost_merge (left right : HuffmanNode) (hl : goodNode left) (hr : goodNode right) :
    depthCost (HuffmanNode.node none (left.freq + right.freq) left right).leafDepths
      = depthCost left.leafDepths + depthCost right.leafDepths + (left.freq + right.freq) := by
  rw [leafDepths_node _ _ _ _ (isStrict_ne_null _ hl.1), depthCost_append, depthCost_shift,
    depthCost_shift, leafDepths_weights _ hl.1, leafDepths_weights _ hr.1,
    ← goodNode_freq _ hl, ← goodNode_freq _ hr]
  omega

theorem sortNodes_map_freq (nodes : List HuffmanNode) :
    (sortNodes nodes).map HuffmanNode.freq
      = List.insertionSort (fun a b : Nat => a ≤ b) (nodes.map HuffmanNode.freq) :=
  List.map_insertionSort (fun (a b : HuffmanNode) => a.freq ≤ b.freq)
    (fun (a b : Nat) => a ≤ b) HuffmanNode.freq nodes (fun _ _ _ _ => Iff.rfl)

theorem greedyCost_short (fuel : Nat) (ws : List Nat) (h : ws.length ≤ 1) :
    greedyCost fuel ws = 0 := by
  cases fuel with
  | zero => rfl
  | succ fuel =>
    rw [greedyCost]
    have hlen : (List.insertionSort (fun a b : Nat => a ≤ b) ws).length = ws.length :=
      List.length_insertionSort _ ws
    match hs : List.insertionSort (fun a b : Nat => a ≤ b) ws with
    | [] => rfl
    | [x] => rfl
    | x :: y :: rest =>
      rw [hs] at hlen
      simp at hlen
      omega

/-- The total cost of the trees of the forest when the loop stops is their total cost at
the start plus the frequencies of the nodes that the loop made. -/
theorem mergeLoop_depthCost (fuel : Nat) (nodes : List HuffmanNode)
    (h : ∀ n ∈ nodes, goodNode n) :
    ((mergeLoop fuel nodes).map (fun n => depthCost n.leafDepths)).sum
      = (nodes.map (fun n => depthCost n.leafDepths)).sum
        + greedyCost fuel (nodes.map HuffmanNode.freq) := by
  induction fuel generalizing nodes with
  | zero => simp [mergeLoop, greedyCost]
  | succ fuel ih =>
    by_cases hlen : nodes.length > 1
    · obtain ⟨left, right, rest, hs, hm⟩ := mergeStep_spec nodes hlen
      have hp : (left :: right :: rest).Perm nodes := hs ▸ sortNodes_perm nodes
      have hgood : ∀ n ∈ left :: right :: rest, goodNode n := fun n hn => h n (hp.subset hn)
      have gl := hgood left (by simp)
      have gr := hgood right (by simp)
      have hgood2 : ∀ n ∈ mergeStep nodes, goodNode n := by
        intro n hn
        rw [hm] at hn
        rcases List.mem_append.1 hn with hn | hn
        · exact hgood n (by simp [hn])
        · simp only [List.mem_singleton] at hn
          rw [hn]
          exact goodNode_merge left right gl gr
      have hsf := sortNodes_map_freq nodes
      rw [hs] at hsf
      simp only [List.map_cons] at hsf
      rw [mergeLoop, if_pos hlen, ih _ hgood2, greedyCost, ← hsf]
      simp only
      rw [hm]
      simp only [List.map_append, List.map_cons, List.map_nil, List.sum_append, List.sum_cons,
        List.sum_nil, depthCost_merge left right gl gr]
      have hsum := ((hp.map (fun n => depthCost n.leafDepths)).sum_eq)
      simp only [List.map_cons, List.sum_cons] at hsum
      rw [← hsum]
      simp only [HuffmanNode.freq]
      omega
    · rw [mergeLoop, if_neg hlen, greedyCost_short _ _ (by simpa using hlen)]
      rfl

/-- The cost of the tree built from a table is the total of the frequencies of the nodes
that the loop makes on the counts of the table. -/
theorem buildHuffmanTree_depthCost (t : JsObject Nat) (root : HuffmanNode)
    (h : buildHuffmanTree t = Except.ok (some root)) :
    depthCost root.leafDepths = greedyCost t.length (t.map Prod.snd) := by
  have hne : t ≠ [] := by
    intro h0
    rw [h0] at h
    have h1 : buildHuffmanTree [] = Except.ok none := rfl
    rw [h1] at h
    injection h with h2
    exact Option.noConfusion h2
  obtain ⟨root2, hroot2, hloop⟩ := buildHuffmanTree_eq t hne
  have hrr : root2 = root := by
    rw [h] at hroot2
    injection hroot2 with h1
    injection h1 with h1
    exact h1.symm
  subst hrr
  have hgood : ∀ n ∈ initialNodes t, goodNode n := (forestInv_initial t).1
  have := mergeLoop_depthCost (initialNodes t).length (initialNodes t) hgood
  rw [hloop] at this
  have h0 : ((initialNodes t).map (fun n => depthCost n.leafDepths)).sum = 0 := by
    apply List.sum_eq_zero
    intro x hx
    obtain ⟨n, hn, rfl⟩ := List.mem_map.1 hx
    simp only [initialNodes, objectEntries, List.mem_map] at hn
    obtain ⟨e, _, rfl⟩ := hn
    rfl
  have h1 : (initialNodes t).map HuffmanNode.freq = t.map Prod.snd := by
    simp only [initialNodes, objectEntries, List.map_map]
    rfl
  have h2 : (initialNodes t).length = t.length := by simp [initialNodes, objectEntries]
  rw [h0, h1, h2] at this
  simpa using this


/-! ## Optimality: the weighted path length of a strict tree -/

theorem mem_le_sum (l : List Nat) (x : Nat) (h : x ∈ l) : x ≤ l.sum := by
  induction l with
  | nil => cases h
  | cons y rest ih =>
    rw [List.sum_cons]
    rcases List.mem_cons.1 h with rfl | h1
    · omega
    · have := ih h1
      omega

theorem codeWrites_leaf (c : Char) (f : Nat) (currentCode : List Char) :
    codeWrites (HuffmanNode.node (some c) f HuffmanNode.null HuffmanNode.null) currentCode
      = [(c, currentCode)] := by
  simp [codeWrites]

theorem codeWrites_ne_nil (t : HuffmanNode) (h : t.isStrict = true) (currentCode : List Char) :
    codeWrites t currentCode ≠ [] := by
  induction t generalizing currentCode with
  | null => simp [HuffmanNode.isStrict] at h
  | node char freq left right ihl _ =>
    rcases isStrict_cases _ h with ⟨c1, f1, e1⟩ | ⟨f1, l1, r1, e1, hl, hr⟩
    · rw [e1, codeWrites_leaf]
      simp
    · injection e1 with h1 h2 h3 h4
      subst h1 h2 h3 h4
      rw [codeWrites_internal]
      intro h0
      exact ihl hl _ (List.append_eq_nil.1 h0).1

/-- The code lengths of a strict tree have Kraft sum `2 ^ (N - k)` when the codes start
from a code of length `k`. -/
theorem kraftSum_codeWrites (t : HuffmanNode) (h : t.isStrict = true) (N : Nat)
    (currentCode : List Char) (hN : ∀ e ∈ codeWrites t currentCode, e.2.length ≤ N) :
    kraftSum N ((codeWrites t currentCode).map (fun e => e.2.length))
      = 2 ^ (N - currentCode.length) := by
  induction t generalizing currentCode with
  | null => simp [HuffmanNode.isStrict] at h
  | node char freq left right ihl ihr =>
    rcases isStrict_cases _ h with ⟨c1, f1, e1⟩ | ⟨f1, l1, r1, e1, hl, hr⟩
    · rw [e1, codeWrites_leaf]
      simp [kraftSum]
    · injection e1 with h1 h2 h3 h4
      subst h1 h2 h3 h4
      rw [codeWrites_internal] at hN ⊢
      have hNl : ∀ e ∈ codeWrites left (currentCode ++ ['0']), e.2.length ≤ N :=
        fun e he => hN e (List.mem_append_left _ he)
      have hNr : ∀ e ∈ codeWrites right (currentCode ++ ['1']), e.2.length ≤ N :=
        fun e he => hN e (List.mem_append_right _ he)
      have hk : currentCode.length + 1 ≤ N := by
        obtain ⟨e, he⟩ := List.exists_mem_of_ne_nil _ (codeWrites_ne_nil left hl (currentCode ++ ['0']))
        have h1 := (codeWrites_extends left _ e he).length_le
        have h2 := hNl e he
        simp only [List.length_append, List.length_singleton] at h1
        omega
      have e1 := ihl hl _ hNl
      have e2 := ihr hr _ hNr
      simp only [List.length_append, List.length_singleton] at e1 e2
      simp only [kraftSum, List.map_append, List.sum_append] at e1 e2 ⊢
      rw [e1, e2]
      have e3 : N - currentCode.length = (N - (currentCode.length + 1)) + 1 := by omega
      rw [e3, Nat.pow_succ]
      omega

/-- In a tree whose leaves carry the counts of a table, the counts and code lengths of
the leaves are their frequencies and depths. -/
theorem codeWrites_eq_leafDepths (t : JsObject Nat) (tree : HuffmanNode)
    (h : tree.isStrict = true)
    (hW : ∀ e ∈ tree.leaves, ∃ c, e.1 = some c ∧ (objGet t c).getD 0 = e.2)
    (currentCode : List Char) :
    (codeWrites tree currentCode).map (fun e => ((objGet t e.1).getD 0, e.2.length))
      = tree.leafDepths.map (fun e => (e.1, e.2 + currentCode.length)) := by
  induction tree generalizing currentCode with
  | null => simp [HuffmanNode.isStrict] at h
  | node char freq left right ihl ihr =>
    rcases isStrict_cases _ h with ⟨c1, f1, e1⟩ | ⟨f1, l1, r1, e1, hl, hr⟩
    · injection e1 with h1 h2 h3 h4
      subst h1 h2 h3 h4
      obtain ⟨c, hc, hf⟩ := hW (some c1, freq) (by simp [HuffmanNode.leaves])
      simp only [Option.some.injEq] at hc
      subst hc
      simp only at hf
      rw [codeWrites_leaf, leafDepths_leaf]
      simp [hf]
    · injection e1 with h1 h2 h3 h4
      subst h1 h2 h3 h4
      rw [leaves_node _ _ _ _ (isStrict_ne_null _ hl)] at hW
      rw [codeWrites_internal, leafDepths_node _ _ _ _ (isStrict_ne_null _ hl), List.map_append,
        ihl hl (fun e he => hW e (List.mem_append_left _ he)),
        ihr hr (fun e he => hW e (List.mem_append_right _ he))]
      simp only [List.map_append, List.map_map, List.length_append, List.length_singleton]
      congr 1 <;>
      · apply List.map_congr_left
        intro e _
        simp only [Function.comp]
        congr 1
        omega

/-- The keys written by `generateHuffmanCodes` on a strict tree whose leaves carry the
symbols of a table with distinct keys: the keys of the table, each once. -/
theorem codeWrites_keys_perm (t : JsObject Nat) (tree : HuffmanNode)
    (h : tree.isStrict = true)
    (hp : (tree.leaves.map Prod.fst).Perm (t.map (fun e => some e.1))) :
    ((codeWrites tree []).map Prod.fst).Perm (t.map Prod.fst) := by
  have hkeys : ((codeWrites tree []).map (fun e => some e.1)).Perm
      (t.map (fun e => some e.1)) := by
    rw [codeWrites_keys tree h []]
    exact hp
  have h1 : (((codeWrites tree []).map Prod.fst).map some).Perm
      ((t.map Prod.fst).map some) := by
    simpa [List.map_map, Function.comp] using hkeys
  have h2 := h1.filterMap id
  simpa [List.filterMap_map] using h2

theorem getD_of_mem (t : JsObject Nat) (hnd : (t.map Prod.fst).Nodup) (e : Char × Nat)
    (he : e ∈ t) : (objGet t e.1).getD 0 = e.2 := by
  rw [objGet_of_mem t hnd e he]
  rfl

/-- The weighted path length of a strict tree whose leaves carry the symbols of a table
is the cost of its leaves, with the counts of the table as weights and the lengths of the
codes as depths. -/
theorem weightedLength_eq_depthCost (t : JsObject Nat) (hnd : (t.map Prod.fst).Nodup)
    (tree : HuffmanNode) (h : tree.isStrict = true)
    (hp : (tree.leaves.map Prod.fst).Perm (t.map (fun e => some e.1))) :
    weightedLength t tree = depthCost (weightedDepths t tree) := by
  have hk := codeWrites_keys_perm t tree h hp
  have hknd : ((codeWrites tree []).map Prod.fst).Nodup := hk.nodup_iff.2 hnd
  have e1 : weightedLength t tree
      = ((t.map Prod.fst).map (fun k => (objGet t k).getD 0
          * codeLength (generateCodes tree [] []) k)).sum := by
    unfold weightedLength
    rw [List.map_map]
    congr 1
    apply List.map_congr_left
    intro e he
    simp only [Function.comp, getD_of_mem t hnd e he]
  have e2 : depthCost (weightedDepths t tree)
      = (((codeWrites tree []).map Prod.fst).map (fun k => (objGet t k).getD 0
          * codeLength (generateCodes tree [] []) k)).sum := by
    unfold depthCost weightedDepths
    rw [List.map_map, List.map_map]
    congr 1
    apply List.map_congr_left
    intro e he
    have hget : objGet (generateCodes tree [] []) e.1 = some e.2 := by
      rw [generateCodes_eq_foldl]
      exact objGet_foldl_of_mem _ _ hknd e.1 e.2 he
    simp only [Function.comp, codeLength, hget]
  rw [e1, e2]
  exact ((hk.map _).sum_eq).symm

/-- The weights of the leaves of such a tree are the counts of the table. -/
theorem weightedDepths_weights (t : JsObject Nat) (hnd : (t.map Prod.fst).Nodup)
    (tree : HuffmanNode) (h : tree.isStrict = true)
    (hp : (tree.leaves.map Prod.fst).Perm (t.map (fun e => some e.1))) :
    ((weightedDepths t tree).map Prod.fst).Perm (t.map Prod.snd) := by
  have hk := codeWrites_keys_perm t tree h hp
  have e1 : (weightedDepths t tree).map Prod.fst
      = ((codeWrites tree []).map Prod.fst).map (fun k => (objGet t k).getD 0) := by
    unfold weightedDepths
    rw [List.map_map, List.map_map]
    rfl
  have e2 : t.map Prod.snd = (t.map Prod.fst).map (fun k => (objGet t k).getD 0) := by
    rw [List.map_map]
    apply List.map_congr_left
    intro e he
    simp only [Function.comp, getD_of_mem t hnd e he]
  rw [e1, e2]
  exact hk.map _

/-- The depths of the leaves of a strict tree have Kraft sum `2 ^ N` for some bound `N`
of the depths. -/
theorem weightedDepths_kraft (t : JsObject Nat) (tree : HuffmanNode)
    (h : tree.isStrict = true) :
    ∃ N, (∀ e ∈ weightedDepths t tree, e.2 ≤ N)
      ∧ kraftSum N ((weightedDepths t tree).map Prod.snd) = 2 ^ N := by
  have hN : ∀ e ∈ codeWrites tree [],
      e.2.length ≤ ((codeWrites tree []).map (fun e => e.2.length)).sum :=
    fun e he => mem_le_sum _ _ (List.mem_map_of_mem (fun e => e.2.length) he)
  refine ⟨((codeWrites tree []).map (fun e => e.2.length)).sum, ?_, ?_⟩
  · intro e he
    unfold weightedDepths at he
    obtain ⟨e0, he0, rfl⟩ := List.mem_map.1 he
    exact hN e0 he0
  · have := kraftSum_codeWrites tree h _ [] hN
    simp only [List.length_nil, Nat.sub_zero] at this
    unfold weightedDepths
    rw [List.map_map]
    exact this


/-! ## Optimality: the length of the encoding, and the theorem -/

theorem sum_ite_of_nodup (ks : List Char) (c : Char) (g : Char → Nat) (hnd : ks.Nodup)
    (hc : c ∈ ks) : (ks.map (fun k => (if c = k then 1 else 0) * g k)).sum = g c := by
  induction ks with
  | nil => cases hc
  | cons k rest ih =>
    rw [List.nodup_cons] at hnd
    rw [List.map_cons, List.sum_cons]
    by_cases hk : c = k
    · subst hk
      have hz : (rest.map (fun k => (if c = k then 1 else 0) * g k)).sum = 0 := by
        apply List.sum_eq_zero
        intro x hx
        obtain ⟨k, hk, rfl⟩ := List.mem_map.1 hx
        have : c ≠ k := fun h0 => hnd.1 (h0 ▸ hk)
        simp [this]
      rw [hz]
      simp
    · have hin : c ∈ rest := by
        rcases List.mem_cons.1 hc with h1 | h1
        · exact absurd h1 hk
        · exact h1
      rw [ih hnd.2 hin]
      simp [hk]

/-- A sum over the symbols of a string, gathered by symbol. -/
theorem sum_map_eq_sum_count (s ks : List Char) (g : Char → Nat) (hnd : ks.Nodup)
    (hs : ∀ c ∈ s, c ∈ ks) :
    (s.map g).sum = (ks.map (fun k => s.count k * g k)).sum := by
  induction s with
  | nil =>
    symm
    apply List.sum_eq_zero
    intro x hx
    obtain ⟨k, _, rfl⟩ := List.mem_map.1 hx
    simp
  | cons c rest ih =>
    have h1 := ih (fun x hx => hs x (List.mem_cons_of_mem _ hx))
    have h2 := sum_ite_of_nodup ks c g hnd (hs c (List.mem_cons_self _ _))
    have h3 : (ks.map (fun k => (c :: rest).count k * g k)).sum
        = (ks.map (fun k => rest.count k * g k)).sum
          + (ks.map (fun k => (if c = k then 1 else 0) * g k)).sum := by
      rw [← List.sum_map_add]
      congr 1
      apply List.map_congr_left
      intro k _
      rw [List.count_cons, Nat.add_mul]
      simp only [beq_iff_eq]
    rw [List.map_cons, List.sum_cons, h3, h1, h2]
    omega

/-- The number of bits that `compressString` returns for an input, with the codes of a
strict tree whose leaves carry the symbols of the frequency table of the input, is the
weighted path length of the tree for that table. -/
theorem compressString_length (s : List Char) (tree : HuffmanNode) (h : tree.isStrict = true)
    (hp : (tree.leaves.map Prod.fst).Perm ((buildFrequencyMap s).map (fun e => some e.1)))
    (bits : List Char)
    (hb : compressString s (some (generateCodes tree [] [])) = Except.ok bits) :
    bits.length = weightedLength (buildFrequencyMap s) tree := by
  have hnd := buildFrequencyMap_nodup s
  have hk := codeWrites_keys_perm (buildFrequencyMap s) tree h hp
  have hknd : ((codeWrites tree []).map Prod.fst).Nodup := hk.nodup_iff.2 hnd
  have hbits : bits
      = (s.map (fun c => codeText (objGet (generateCodes tree [] []) c))).flatten := by
    cases s with
    | nil =>
      have : compressString [] (some (generateCodes tree [] [])) = Except.ok [] := rfl
      rw [this] at hb
      injection hb with hb
      rw [← hb]
      rfl
    | cons c rest =>
      have : compressString (c :: rest) (some (generateCodes tree [] []))
          = Except.ok (compressLoop (generateCodes tree [] []) (c :: rest) []) := rfl
      rw [this, compressLoop_eq] at hb
      injection hb with hb
      rw [← hb]
      rfl
  have hlen : bits.length = (s.map (codeLength (generateCodes tree [] []))).sum := by
    rw [hbits, List.length_flatten, List.map_map]
    congr 1
    apply List.map_congr_left
    intro c hc
    have hin : c ∈ (codeWrites tree []).map Prod.fst :=
      hk.mem_iff.2 ((buildFrequencyMap_mem_keys s c).2 hc)
    obtain ⟨e, he, hec⟩ := List.mem_map.1 hin
    have hget : objGet (generateCodes tree [] []) c = some e.2 := by
      rw [generateCodes_eq_foldl]
      apply objGet_foldl_of_mem _ _ hknd
      rw [← hec]
      exact he
    simp only [Function.comp, codeLength, hget, codeText]
  rw [hlen, sum_map_eq_sum_count s ((buildFrequencyMap s).map Prod.fst) _ hnd
    (fun c hc => (buildFrequencyMap_mem_keys s c).2 hc)]
  unfold weightedLength
  rw [List.map_map]
  congr 1
  apply List.map_congr_left
  intro e he
  have h1 := objGet_of_mem _ hnd e he
  rw [buildFrequencyMap_get] at h1
  have hin : e.1 ∈ s := (buildFrequencyMap_mem_keys s e.1).1 (List.mem_map_of_mem Prod.fst he)
  rw [if_pos hin] at h1
  have h2 : s.count e.1 = e.2 := Option.some.inj h1
  simp only [Function.comp, h2]

/-- **C20.** Optimality of the built code: for a frequency table `t` with two entries or
more (and, being a table, distinct keys), the weighted path length of the tree that
`buildHuffmanTree` builds, the sum over the entries `c: n` of `n` times the length of the
code of `c`, is the number of bits that `compressString` returns for every input whose
frequency table is `t`, and it is at most the weighted path length of every strict binary
tree whose leaves carry exactly the symbols of `t`. -/
theorem buildHuffmanTree_optimal (t : JsObject Nat) (hnd : (t.map Prod.fst).Nodup)
    (h2 : 2 ≤ t.length) :
    ∃ root codes, buildHuffmanTree t = Except.ok (some root)
      ∧ generateHuffmanCodes (some root) = Except.ok (some codes)
      ∧ weightedLength t root = (t.map (fun e => e.2 * codeLength codes e.1)).sum
      ∧ (∀ s bits, buildFrequencyMap s = t → compressString s (some codes) = Except.ok bits →
          bits.length = weightedLength t root)
      ∧ ∀ other : HuffmanNode, other.isStrict = true →
          (other.leaves.map Prod.fst).Perm (t.map (fun e => some e.1)) →
          weightedLength t root ≤ weightedLength t other := by
  have hne : t ≠ [] := by
    intro h0
    rw [h0] at h2
    simp at h2
  obtain ⟨root, hroot, hgood, hp⟩ := buildHuffmanTree_good t hne
  have hpk : (root.leaves.map Prod.fst).Perm (t.map (fun e => some e.1)) := by
    simpa [List.map_map, Function.comp] using hp.map Prod.fst
  refine ⟨root, generateCodes root [] [], hroot,
    generateHuffmanCodes_of_strict root hgood.1, rfl, ?_, ?_⟩
  · intro s bits hs hb
    subst hs
    exact compressString_length s root hgood.1 hpk bits hb
  · intro other hstrict hother
    have hW : ∀ e ∈ root.leaves, ∃ c, e.1 = some c ∧ (objGet t c).getD 0 = e.2 := by
      intro e he
      obtain ⟨e0, he0, rfl⟩ := List.mem_map.1 (hp.subset he)
      exact ⟨e0.1, rfl, getD_of_mem t hnd e0 he0⟩
    have e1 : weightedDepths t root = root.leafDepths := by
      have := codeWrites_eq_leafDepths t root hgood.1 hW []
      simp only [List.length_nil, Nat.add_zero, Prod.mk.eta, List.map_id'] at this
      exact this
    obtain ⟨N, hN, hk⟩ := weightedDepths_kraft t other hstrict
    calc weightedLength t root
        = depthCost (weightedDepths t root) :=
          weightedLength_eq_depthCost t hnd root hgood.1 hpk
      _ = greedyCost t.length (t.map Prod.snd) := by
          rw [e1, buildHuffmanTree_depthCost t root hroot]
      _ ≤ depthCost (weightedDepths t other) :=
          greedyCost_le_depthCost t.length (t.map Prod.snd) (weightedDepths t other) N
            (weightedDepths_weights t hnd other hstrict hother) hN hk
      _ = weightedLength t other :=
          (weightedLength_eq_depthCost t hnd other hstrict hother).symm

/-- The table a:4, b:2, c:1, d:1 has distinct keys and four entries; its tree costs 14
bits, and the balanced tree over the same symbols costs 16. -/
theorem buildHuffmanTree_optimal_witness :
    ([('a', 4), ('b', 2), ('c', 1), ('d', 1)].map Prod.fst).Nodup
    ∧ 2 ≤ [('a', 4), ('b', 2), ('c', 1), ('d', 1)].length
    ∧ weightedLength [('a', 4), ('b', 2), ('c', 1), ('d', 1)]
        (HuffmanNode.node none 8
          (HuffmanNode.node none 6 (HuffmanNode.leaf 'a' 4) (HuffmanNode.leaf 'b' 2))
          (HuffmanNode.node none 2 (HuffmanNode.leaf 'c' 1) (HuffmanNode.leaf 'd' 1))) = 16
    ∧ ∃ root codes, buildHuffmanTree [('a', 4), ('b', 2), ('c', 1), ('d', 1)]
        = Except.ok (some root)
      ∧ generateHuffmanCodes (some root) = Except.ok (some codes)
      ∧ weightedLength [('a', 4), ('b', 2), ('c', 1), ('d', 1)] root
        = ([('a', 4), ('b', 2), ('c', 1), ('d', 1)].map
            (fun e => e.2 * codeLength codes e.1)).sum
      ∧ (∀ s bits, buildFrequencyMap s = [('a', 4), ('b', 2), ('c', 1), ('d', 1)] →
          compressString s (some codes) = Except.ok bits →
          bits.length = weightedLength [('a', 4), ('b', 2), ('c', 1), ('d', 1)] root)
      ∧ ∀ other : HuffmanNode, other.isStrict = true →
          (other.leaves.map Prod.fst).Perm
            ([('a', 4), ('b', 2), ('c', 1), ('d', 1)].map (fun e => some e.1)) →
          weightedLength [('a', 4), ('b', 2), ('c', 1), ('d', 1)] root
            ≤ weightedLength [('a', 4), ('b', 2), ('c', 1), ('d', 1)] other :=
  ⟨by decide, by decide, by decide,
    buildHuffmanTree_optimal [('a', 4), ('b', 2), ('c', 1), ('d', 1)] (by decide) (by decide)⟩


end Huffman
